import Mathlib

/-!
# johampel/units: the expression engine and the unit registry

A shallow embedding of `internal/expression.go`, `internal/unit.go` and the
commands of `units.go`.

* Go strings are Lean `String`s (valid UTF-8 text); the helpers that scan a
  string work on its list of characters.
* Go's `int` is the 64-bit two's-complement integer: exponents are `Int`s and
  every `+=` / `*=` of the source is followed by `wrap64`.
* Go's `float64` is `F64`, IEEE-754 binary64 with round-to-nearest-even.  The
  standard-library functions the source calls (`strconv.ParseFloat`,
  `strconv.Atoi`, `strings.SplitN`, `strings.TrimSpace`, `math.Pow`,
  `fmt.Sprintf`) are modelled after the Go standard library.
* The process-wide map `units` is an explicit `Registry` argument.  A Go map
  has no iteration order; the model iterates in insertion order and results
  that depend on the order are stated up to `List.Perm`.
* Errors are values: `Except String α` carries the message of the source.
* Every command of `units.go` is a process of its own: it seeds the map, reads
  the unit file with `LoadUnits`, works on the loaded map and writes the file
  with `StoreUnits`.  The file is the `Option String` of its content, `none`
  when it does not exist; `addUnit`, `removeUnit` and `eval` are the parts of the
  commands on the loaded map, `addUnitOnFile`, `removeUnitOnFile` and
  `evalOnFile` the commands from file to file.
-/

namespace GoUnits

deriving instance DecidableEq for Except

/-! ## Strings -/

/-- The predicate `unicode.IsSpace`, which `strings.TrimSpace` trims by. -/
def isSpace (c : Char) : Bool :=
  let n := c.toNat
  n = 9 || n = 10 || n = 11 || n = 12 || n = 13 || n = 32 || n = 0x85 || n = 0xA0
    || n = 0x1680 || (0x2000 ≤ n && n ≤ 0x200A) || n = 0x2028 || n = 0x2029
    || n = 0x202F || n = 0x205F || n = 0x3000

/-- The function `strings.TrimSpace`: leading and trailing white space removed. -/
def TrimSpace (s : List Char) : List Char :=
  (s.dropWhile isSpace).rdropWhile isSpace

/-- Is the character a decimal digit, `'0' <= c && c <= '9'`. -/
def isDigit (c : Char) : Bool := 48 ≤ c.toNat && c.toNat ≤ 57

/-- The value of a decimal digit. -/
def digitVal (c : Char) : Nat := c.toNat - 48

/-- The value of a non-empty string of decimal digits, `none` for anything else. -/
def parseDigits (s : List Char) : Option Nat :=
  if s ≠ [] ∧ s.all isDigit then some (s.foldl (fun acc c => acc * 10 + digitVal c) 0)
  else none

/-- The smallest `int`. -/
def minInt : Int := -(2 ^ 63)

/-- The largest `int`. -/
def maxInt : Int := 2 ^ 63 - 1

/-- Two's-complement wrap-around of an `int` operation's exact result. -/
def wrap64 (n : Int) : Int := (n + 2 ^ 63) % 2 ^ 64 - 2 ^ 63

/-- The function `strconv.Atoi`: an optional sign and decimal digits, a value outside
the `int` range being an error like a malformed string. -/
def Atoi (s : List Char) : Option Int :=
  let signed : Bool × List Char :=
    match s with
    | c :: rest => if c = '-' then (true, rest) else if c = '+' then (false, rest) else (false, s)
    | [] => (false, [])
  match parseDigits signed.2 with
  | none => none
  | some n =>
    let v : Int := if signed.1 then -(n : Int) else (n : Int)
    if minInt ≤ v ∧ v ≤ maxInt then some v else none

/-- What `%d` prints for an `int`. -/
def formatInt (n : Int) : List Char :=
  if n < 0 then '-' :: Nat.toDigits 10 n.natAbs else Nat.toDigits 10 n.natAbs

/-! ## float64 -/

/-- An IEEE-754 binary64 value.  A finite value is `(-1)^neg * mant * 2^exp` in the
hardware's canonical form: `2^52 ≤ mant < 2^53` and `-1074 ≤ exp ≤ 971` for a normal
number, `mant < 2^52` and `exp = -1074` for a subnormal one or a zero. -/
inductive F64 where
  | nan : F64
  | inf (neg : Bool) : F64
  | fin (neg : Bool) (mant : Nat) (exp : Int) : F64
deriving DecidableEq, Repr

namespace F64

/-- The zero of the given sign. -/
def zero (neg : Bool) : F64 := .fin neg 0 (-1074)

/-- The number of binary digits of `n`, with `fuel` at least that number. -/
def bitLenAux : Nat → Nat → Nat
  | 0, _ => 0
  | fuel + 1, n => if n = 0 then 0 else bitLenAux fuel (n / 2) + 1

/-- The number of binary digits of `n`: `⌊log₂ n⌋ + 1` for a positive `n`. -/
def bitLen (n : Nat) : Nat := bitLenAux n n

/-- The rational `n / d` of the given sign rounded to the nearest binary64, ties to
even; a magnitude past the largest finite value rounds to an infinity. -/
def round (neg : Bool) (n d : Nat) : F64 :=
  if n = 0 then zero neg
  else
    let l : Int := (bitLen n : Int) - (bitLen d : Int) - 52
    let q0 := (n * 2 ^ (-l).toNat) / (d * 2 ^ l.toNat)
    let e1 : Int := if q0 < 2 ^ 52 then l - 1 else l
    let e : Int := max e1 (-1074)
    let num := n * 2 ^ (-e).toNat
    let den := d * 2 ^ e.toNat
    let q := num / den
    let r := num % den
    let q1 := if den < 2 * r ∨ (2 * r = den ∧ q % 2 = 1) then q + 1 else q
    let q2 := if q1 = 2 ^ 53 then 2 ^ 52 else q1
    let e2 : Int := if q1 = 2 ^ 53 then e + 1 else e
    if 971 < e2 then .inf neg else .fin neg q2 e2

/-- The value `m * 2^e` of the given sign, rounded. -/
def ofScaled (neg : Bool) (m : Nat) (e : Int) : F64 :=
  round neg (m * 2 ^ e.toNat) (2 ^ (-e).toNat)

/-- The conversion `float64(n)` of an `int`. -/
def ofInt (n : Int) : F64 := round (decide (n < 0)) n.natAbs 1

/-- The constant 1. -/
def one : F64 := ofInt 1

/-- The constant 0.5. -/
def half : F64 := ofScaled false 1 (-1)

/-- Is the value a NaN. -/
def isNaN : F64 → Bool
  | .nan => true
  | _ => false

/-- The signed integer `k` with value `k * 2^g`, for a finite value whose exponent is at
least `g`. -/
def scaledTo (g : Int) (neg : Bool) (m : Nat) (e : Int) : Int :=
  (if neg then -1 else 1) * ((m * 2 ^ (e - g).toNat : Nat) : Int)

/-- The comparison `a == b` of two floats: NaN equals nothing, the two zeros are equal. -/
def eq : F64 → F64 → Bool
  | .nan, _ => false
  | _, .nan => false
  | .inf s, .inf t => s = t
  | .inf _, .fin _ _ _ => false
  | .fin _ _ _, .inf _ => false
  | .fin s m e, .fin t k f => scaledTo (min e f) s m e = scaledTo (min e f) t k f

/-- The comparison `a != b` of two floats. -/
def ne (a b : F64) : Bool := !(eq a b)

/-- The comparison `a < b` of two floats. -/
def lt : F64 → F64 → Bool
  | .nan, _ => false
  | _, .nan => false
  | .inf s, .inf t => s && !t
  | .inf s, .fin _ _ _ => s
  | .fin _ _ _, .inf t => !t
  | .fin s m e, .fin t k f => scaledTo (min e f) s m e < scaledTo (min e f) t k f

/-- The negation `-a`. -/
def neg : F64 → F64
  | .nan => .nan
  | .inf s => .inf (!s)
  | .fin s m e => .fin (!s) m e

/-- The function `math.Abs`. -/
def abs : F64 → F64
  | .nan => .nan
  | .inf _ => .inf false
  | .fin _ m e => .fin false m e

/-- The product `a * b`. -/
def mul : F64 → F64 → F64
  | .nan, _ => .nan
  | _, .nan => .nan
  | .inf s, .inf t => .inf (xor s t)
  | .inf s, .fin t k _ => if k = 0 then .nan else .inf (xor s t)
  | .fin s m _, .inf t => if m = 0 then .nan else .inf (xor s t)
  | .fin s m e, .fin t k f => ofScaled (xor s t) (m * k) (e + f)

/-- The quotient `a / b`. -/
def div : F64 → F64 → F64
  | .nan, _ => .nan
  | _, .nan => .nan
  | .inf _, .inf _ => .nan
  | .inf s, .fin t _ _ => .inf (xor s t)
  | .fin s _ _, .inf t => zero (xor s t)
  | .fin s m e, .fin t k f =>
    if k = 0 then (if m = 0 then .nan else .inf (xor s t))
    else round (xor s t) (m * 2 ^ (e - f).toNat) (k * 2 ^ (f - e).toNat)

/-- The sum `a + b`. -/
def add : F64 → F64 → F64
  | .nan, _ => .nan
  | _, .nan => .nan
  | .inf s, .inf t => if s = t then .inf s else .nan
  | .inf s, .fin _ _ _ => .inf s
  | .fin _ _ _, .inf t => .inf t
  | .fin s m e, .fin t k f =>
    let c : Int := scaledTo (min e f) s m e + scaledTo (min e f) t k f
    if c = 0 then zero (s && t) else ofScaled (decide (c < 0)) c.natAbs (min e f)

/-- The whole number `⌊|a|⌋` of a finite value, 0 for the others. -/
def floorAbs : F64 → Nat
  | .fin _ m e => (m * 2 ^ e.toNat) / 2 ^ (-e).toNat
  | _ => 0

/-- The helper `isOddInt` of `math.Pow`: is the value an odd whole number. -/
def isOddInt : F64 → Bool
  | .fin _ m e =>
    if 2 ^ 53 * 2 ^ (-e).toNat ≤ m * 2 ^ e.toNat then false
    else (m * 2 ^ e.toNat) % 2 ^ (-e).toNat = 0 && ((m * 2 ^ e.toNat) / 2 ^ (-e).toNat) % 2 = 1
  | _ => false

/-- The function `math.Frexp`: `a = frac * 2^exp` with `0.5 ≤ |frac| < 1`; zeros,
infinities and NaN come back unchanged with exponent 0. -/
def Frexp : F64 → F64 × Int
  | .fin s m e =>
    if m = 0 then (.fin s m e, 0)
    else (.fin s (m * 2 ^ (53 - bitLen m)) (-53), (bitLen m : Int) + e)
  | a => (a, 0)

/-- The function `math.Ldexp`: `frac * 2^exp`, rounded once where the result is
subnormal, an infinity where it overflows. -/
def Ldexp (frac : F64) (exp : Int) : F64 :=
  match frac with
  | .fin s m e => if m = 0 then frac else ofScaled s m (e + exp)
  | _ => frac

/-- The loop of `math.Pow` that multiplies `x1 * 2^xe` into the answer `a1 * 2^ae` once
for every set bit of `i`, squaring it in between. -/
def powLoop : Nat → Nat → F64 → Int → F64 → Int → F64 × Int
  | 0, _, _, _, a1, ae => (a1, ae)
  | fuel + 1, i, x1, xe, a1, ae =>
    if i = 0 then (a1, ae)
    else if xe < -4096 ∨ 4096 < xe then (a1, ae + xe)
    else
      let a1n := if i % 2 = 1 then mul a1 x1 else a1
      let aen := if i % 2 = 1 then ae + xe else ae
      let x2 := mul x1 x1
      if lt x2 half then powLoop fuel (i / 2) (add x2 x2) (2 * xe - 1) a1n aen
      else powLoop fuel (i / 2) x2 (2 * xe) a1n aen

/-- The call `math.Pow(x, float64(n))` of the source, for an `int` exponent `n`.  The
exponent is a whole number, so the cases of `math.Pow` for an infinite, a NaN or a
fractional exponent do not arise and are left out. -/
def Pow (x : F64) (n : Int) : F64 :=
  let y := ofInt n
  if eq y (zero false) || eq x one then one
  else if eq y one then x
  else if isNaN x then .nan
  else if eq x (zero false) then
    if lt y (zero false) then
      (if isOddInt y then (match x with | .fin s _ _ => .inf s | _ => .inf false) else .inf false)
    else (if isOddInt y then x else zero false)
  else
    match x with
    | .inf true =>
      if lt y (zero false) then (if isOddInt y then zero true else zero false)
      else (if isOddInt y then .inf true else .inf false)
    | .inf false => if lt y (zero false) then zero false else .inf false
    | _ =>
      if 2 ^ 63 ≤ floorAbs y then
        if eq x (neg one) then one
        else if lt (abs x) one = lt (zero false) y then zero false
        else .inf false
      else
        let fr := Frexp x
        let r := powLoop 64 (floorAbs y) fr.1 fr.2 one 0
        if lt y (zero false) then Ldexp (div one r.1) (-r.2) else Ldexp r.1 r.2

/-! ### `strconv.ParseFloat` and `%f` -/

/-- ASCII lower case of a letter, as `strconv` compares letters. -/
def lower (c : Char) : Char :=
  if 65 ≤ c.toNat ∧ c.toNat ≤ 90 then Char.ofNat (c.toNat + 32) else c

/-- The helper `special` of `strconv`: the possibly signed words "inf" and "infinity"
and the word "nan", in any case. -/
def special (s : List Char) : Option F64 :=
  let body : List Char :=
    match s with
    | c :: rest => if c = '+' ∨ c = '-' then rest else s
    | [] => []
  let w := body.map lower
  if w = "inf".data ∨ w = "infinity".data then some (.inf (decide (s.head? = some '-')))
  else if w = "nan".data ∧ body = s then some .nan
  else none

/-- The value of a digit in the given base (10 or 16), `none` for another character. -/
def baseDigit (hex : Bool) (c : Char) : Option Nat :=
  if isDigit c then some (digitVal c)
  else if hex ∧ 97 ≤ (lower c).toNat ∧ (lower c).toNat ≤ 102 then some ((lower c).toNat - 87)
  else none

/-- The mantissa loop of `readFloat`.  The state is (a dot was seen, a digit was seen,
an underscore was seen, the digits read as one number, the count of digits after the
dot); the result adds the unread rest of the string. -/
def readMantissa (hex : Bool) :
    List Char → Bool × Bool × Bool × Nat × Nat → (Bool × Bool × Bool × Nat × Nat) × List Char
  | [], st => (st, [])
  | c :: cs, (dot, dig, us, m, fr) =>
    if c = '_' then readMantissa hex cs (dot, dig, true, m, fr)
    else if c = '.' then
      (if dot then ((dot, dig, us, m, fr), c :: cs) else readMantissa hex cs (true, dig, us, m, fr))
    else
      match baseDigit hex c with
      | some d =>
        readMantissa hex cs
          (dot, true, us, m * (if hex then 16 else 10) + d, if dot then fr + 1 else fr)
      | none => ((dot, dig, us, m, fr), c :: cs)

/-- The exponent loop of `readFloat`: digits and underscores, the value no longer
growing once it has reached 10000. -/
def readExpDigits : List Char → Nat → Bool → Nat × Bool × List Char
  | [], e, us => (e, us, [])
  | c :: cs, e, us =>
    if c = '_' then readExpDigits cs e true
    else if isDigit c then readExpDigits cs (if e < 10000 then e * 10 + digitVal c else e) us
    else (e, us, c :: cs)

/-- The helper `underscoreOK` of `strconv`: every underscore separates two digits, the
base prefix counting as a digit.  The state is the kind of the last character seen:
0 the start, 1 a digit, 2 an underscore, 3 anything else. -/
def underscoreScan (hex : Bool) : List Char → Nat → Bool
  | [], saw => saw ≠ 2
  | c :: cs, saw =>
    if (baseDigit hex c).isSome then underscoreScan hex cs 1
    else if c = '_' then (if saw ≠ 1 then false else underscoreScan hex cs 2)
    else if saw = 2 then false
    else underscoreScan hex cs 3

/-- The helper `underscoreOK` of `strconv`, on the whole string. -/
def underscoreOK (s : List Char) : Bool :=
  let body : List Char :=
    match s with
    | c :: rest => if c = '+' ∨ c = '-' then rest else s
    | [] => []
  match body with
  | z :: b :: rest =>
    if z = '0' ∧ (lower b = 'b' ∨ lower b = 'o' ∨ lower b = 'x') then
      underscoreScan (lower b = 'x') rest 1
    else underscoreScan false body 0
  | _ => underscoreScan false body 0

/-- The function `strconv.ParseFloat(s, 64)`, `none` where it returns an error: the
special words, or a decimal or hexadecimal floating-point literal, rounded to the
nearest float; a literal that rounds to an infinity is a range error. -/
def ParseFloat (s : List Char) : Option F64 :=
  match special s with
  | some v => some v
  | none =>
    let body : List Char :=
      match s with
      | c :: rest => if c = '+' ∨ c = '-' then rest else s
      | [] => []
    let negative : Bool := decide (s.head? = some '-')
    let hex : Bool :=
      match body with
      | z :: x :: _ :: _ => z = '0' ∧ lower x = 'x'
      | _ => false
    let st := readMantissa hex (if hex then body.drop 2 else body) (false, false, false, 0, 0)
    let dig := st.1.2.1
    let m := st.1.2.2.2.1
    let fr := st.1.2.2.2.2
    let expo : Option (Int × Bool × List Char) :=
      match st.2 with
      | c :: rest =>
        if lower c = (if hex then 'p' else 'e') then
          let signedRest : List Char :=
            match rest with
            | d :: rest2 => if d = '+' ∨ d = '-' then rest2 else rest
            | [] => []
          match signedRest with
          | d :: _ =>
            if isDigit d then
              let r := readExpDigits signedRest 0 st.1.2.2.1
              some (if rest.head? = some '-' then -(r.1 : Int) else (r.1 : Int), r.2.1, r.2.2)
            else none
          | [] => none
        else if hex then none
        else some (0, st.1.2.2.1, st.2)
      | [] => if hex then none else some (0, st.1.2.2.1, [])
    if !dig then none
    else
      match expo with
      | none => none
      | some (e, us, rest) =>
        if rest ≠ [] then none
        else if us && !underscoreOK s then none
        else
          let v : F64 :=
            if hex then ofScaled negative m (e - 4 * (fr : Int))
            else round negative (m * 10 ^ (e - (fr : Int)).toNat) (10 ^ ((fr : Int) - e).toNat)
          match v with
          | .inf _ => none
          | _ => some v

/-- The digits of `n` padded with zeros on the left to the width `w`. -/
def padZeros (w : Nat) (ds : List Char) : List Char :=
  List.replicate (w - ds.length) '0' ++ ds

/-- What `fmt.Sprintf("%f", v)` prints: the value rounded to six decimals (ties to
even), in fixed-point notation. -/
def formatFloat : F64 → List Char
  | .nan => "NaN".data
  | .inf false => "+Inf".data
  | .inf true => "-Inf".data
  | .fin s m e =>
    let num := m * 10 ^ 6 * 2 ^ e.toNat
    let den := 2 ^ (-e).toNat
    let q := num / den
    let r := num % den
    let q1 := if den < 2 * r ∨ (2 * r = den ∧ q % 2 = 1) then q + 1 else q
    (if s then ['-'] else []) ++ Nat.toDigits 10 (q1 / 10 ^ 6) ++ ['.']
      ++ padZeros 6 (Nat.toDigits 10 (q1 % 10 ^ 6))

end F64

/-! ## `internal/unit.go` -/

/-- The struct `Unit`. -/
structure Unit where
  name : String
  formula : String
deriving DecidableEq, Repr

/-- The method `Unit.IsBaseUnit`. -/
def Unit.IsBaseUnit (t : Unit) : Bool := decide (t.formula = t.name)

/-- The map `units`, as the list of its values in insertion order; the key of a value is
its `name`. -/
abbrev Registry := List Unit

/-- The map lookup `units[name]`. -/
def lookup (units : Registry) (name : String) : Option Unit :=
  units.find? (fun u => decide (u.name = name))

/-- The function `GetUnit`. -/
def GetUnit (units : Registry) (name : String) : Except String Unit :=
  match lookup units name with
  | none => .error ("Unit '" ++ name ++ "' not found")
  | some unit => .ok unit

/-- The function `AddUnit`: the new unit and the map after the call. -/
def AddUnit (units : Registry) (name formula : String) : Except String (Unit × Registry) :=
  match lookup units name with
  | some _ => .error ("Unit '" ++ name ++ "' already defined")
  | none => .ok (⟨name, formula⟩, units ++ [⟨name, formula⟩])

/-- The function `RemoveUnit`: the map after the call. -/
def RemoveUnit (units : Registry) (name : String) : Except String Registry :=
  match lookup units name with
  | none => .error ("Unit '" ++ name ++ "' not found")
  | some _ => .ok (units.filter (fun u => !decide (u.name = name)))

/-- The function `GetUnitNames`. -/
def GetUnitNames (units : Registry) : List String := units.map (fun u => u.name)

/-- The seeding loop of `init`, which stops the process should `AddUnit` fail. -/
def seed : List String → Registry → Registry
  | [], units => units
  | unit :: rest, units =>
    match AddUnit units unit unit with
    | .error _ => units
    | .ok added => seed rest added.2

/-- The map after `init`: the seven SI base units. -/
def init : Registry := seed ["s", "m", "kg", "A", "K", "mol", "cd"] []

/-- The call `strings.SplitN(s, sep, 2)` for a separator of one character: `s` cut at its
first `sep`, or `s` alone when it has none. -/
def SplitN2 (s : List Char) (sep : Char) : List (List Char) :=
  if sep ∈ s then
    [s.takeWhile (fun c => c != sep), (s.dropWhile (fun c => c != sep)).drop 1]
  else [s]

/-- The helper `dropCR` of `bufio.ScanLines`: one trailing carriage return removed. -/
def dropCR (line : List Char) : List Char :=
  if line.getLast? = some '\r' then line.dropLast else line

/-- The texts `scanner.Text()` yields over a `bufio.Scanner` on a file with the content
`data`: the lines, cut at each line feed, without a last line that is empty, each without
its trailing carriage return.  A line of more than 65535 bytes does not fit the buffer of
the scanner; `Scan` then returns false, and that line and those after it are not
yielded. -/
def scanLines (data : List Char) : List (List Char) :=
  let pieces := data.splitOn '\n'
  let lines := if pieces.getLast? = some [] then pieces.dropLast else pieces
  (lines.takeWhile (fun line => decide ((String.mk line).utf8ByteSize ≤ 65535))).map dropCR

/-- The loop of `LoadUnits` over the lines of the file: the map after it, or the error of
the first `AddUnit` that fails. -/
def loadLoop (units : Registry) : List (List Char) → Except String Registry
  | [] => .ok units
  | text :: rest =>
    match SplitN2 text '=' with
    | [name, formula] =>
      match AddUnit units (String.mk (TrimSpace name)) (String.mk (TrimSpace formula)) with
      | .error err => .error err
      | .ok added => loadLoop added.2 rest
    | _ => loadLoop units rest

/-- The function `LoadUnits` on the map `units`: `file` is the content of the unit file,
`none` when there is no such file.  A file that exists is taken to open and to read
without an error of the operating system. -/
def LoadUnits (units : Registry) (file : Option String) : Except String Registry :=
  match file with
  | none => .ok units
  | some content => loadLoop units (scanLines content.data)

/-- The function `StoreUnits`: the content of the unit file it writes, a line
name=formula for every unit that is not a base unit, in the order the map is iterated
in.  The file is taken to be created and written without an error of the operating
system. -/
def StoreUnits (units : Registry) : String :=
  String.join ((units.filter (fun unit => !unit.IsBaseUnit)).map
    (fun unit => unit.name ++ "=" ++ unit.formula ++ "\n"))

/-! ## `internal/expression.go` -/

/-- The struct `term`. -/
structure term where
  unit : String
  exponent : Int
deriving DecidableEq, Repr

/-- The struct `Expression`. -/
structure Expression where
  coefficient : F64
  terms : List term
deriving DecidableEq, Repr

/-- The loop of `Expression.Validate`: the first error of `GetUnit`, `none` for `nil`. -/
def validateLoop (units : Registry) : List term → Option String
  | [] => none
  | t :: rest =>
    match GetUnit units t.unit with
    | .error err => some err
    | .ok _ => validateLoop units rest

/-- The method `Expression.Validate`: the error returned, `none` for `nil`. -/
def Expression.Validate (units : Registry) (t : Expression) : Option String :=
  validateLoop units t.terms

/-- The method `Expression.RefersToUnit`. -/
def Expression.RefersToUnit (t : Expression) (unit : String) : Bool :=
  t.terms.any (fun x => decide (x.unit = unit))

/-- The function `parseTerm`. -/
def parseTerm (str : List Char) : Except String term :=
  match str.splitOn '^' with
  | [name] =>
    if (TrimSpace name).length = 0 then .error ("Invalid term '" ++ String.mk str ++ "'")
    else .ok ⟨String.mk (TrimSpace name), 1⟩
  | [name, power] =>
    if (TrimSpace name).length = 0 then .error ("Invalid term '" ++ String.mk str ++ "'")
    else
      match Atoi (TrimSpace power) with
      | none => .error ("Invalid term '" ++ String.mk str ++ "'")
      | some exp => .ok ⟨String.mk (TrimSpace name), exp⟩
  | _ => .error ("Invalid term '" ++ String.mk str ++ "'")

/-- The loop of `ParseExpression` from the token of index `i` on. -/
def parseLoop : Nat → List (List Char) → F64 → List term → Except String Expression
  | _, [], coeff, terms => .ok ⟨coeff, terms⟩
  | i, termStr :: rest, coeff, terms =>
    match (if i = 0 then F64.ParseFloat (TrimSpace termStr) else none) with
    | some c => parseLoop (i + 1) rest c terms
    | none =>
      match parseTerm termStr with
      | .error err => .error err
      | .ok t => parseLoop (i + 1) rest (if i = 0 then F64.one else coeff) (terms ++ [t])

/-- The function `ParseExpression`. -/
def ParseExpression (str : String) : Except String Expression :=
  parseLoop 0 (str.data.splitOn '*') F64.one []

/-- The loop of `Expression.ReplaceDerivedUnits` over the terms still to visit, with
the terms and the coefficient built so far; `recurse` is the recursive call, which
answers `none` when it does not return. -/
def replaceLoop (units : Registry) (recurse : Expression → Option (Except String Expression)) :
    List term → List term → F64 → Option (Except String Expression)
  | [], terms, coefficient => some (.ok ⟨coefficient, terms⟩)
  | item :: rest, terms, coefficient =>
    match GetUnit units item.unit with
    | .error err => some (.error err)
    | .ok unit =>
      if unit.IsBaseUnit then replaceLoop units recurse rest (terms ++ [item]) coefficient
      else
        match ParseExpression unit.formula with
        | .error err => some (.error err)
        | .ok parsed =>
          match recurse parsed with
          | none => none
          | some (.error err) => some (.error err)
          | some (.ok expr) =>
            replaceLoop units recurse rest
              (terms ++ expr.terms.map (fun x => ⟨x.unit, wrap64 (x.exponent * item.exponent)⟩))
              (if F64.ne expr.coefficient F64.one then
                F64.mul coefficient (F64.Pow expr.coefficient item.exponent)
              else coefficient)

/-- The method `Expression.ReplaceDerivedUnits`, with the depth of recursion bounded by
`fuel`: `none` when the bound is reached, which a run that recurses for ever reaches
for every bound. -/
def Expression.ReplaceDerivedUnits (units : Registry) :
    Nat → Expression → Option (Except String Expression)
  | 0, _ => none
  | fuel + 1, t =>
    replaceLoop units (Expression.ReplaceDerivedUnits units fuel) t.terms [] t.coefficient

/-- One pass of the first loop of `Expression.Normalize`: the map `termsByUnit` after
`item` is entered. -/
def addTerm : List term → term → List term
  | [], item => [⟨item.unit, item.exponent⟩]
  | unitTerm :: rest, item =>
    if unitTerm.unit = item.unit then
      ⟨unitTerm.unit, wrap64 (unitTerm.exponent + item.exponent)⟩ :: rest
    else unitTerm :: addTerm rest item

/-- The method `Expression.Normalize`. -/
def Expression.Normalize (t : Expression) : Expression :=
  ⟨t.coefficient, (t.terms.foldl addTerm []).filter (fun item => decide (item.exponent ≠ 0))⟩

/-- The method `term.String` (`String` is the type of strings here, so the method is
named `format`), as a list of characters. -/
def term.format (t : term) : List Char :=
  if t.exponent = 0 then ['1']
  else if t.exponent = 1 then t.unit.data
  else t.unit.data ++ '^' :: formatInt t.exponent

/-- The loop of `Expression.String`: the builder after the terms are written. -/
def writeTerms : List term → List Char → List Char
  | [], builder => builder
  | t :: rest, builder =>
    writeTerms rest ((if 0 < builder.length then builder ++ ['*'] else builder) ++ t.format)

/-- The method `Expression.String`, named `format` like `term.format`. -/
def Expression.format (t : Expression) : String :=
  if t.terms.length = 0 then "1"
  else
    String.mk (writeTerms t.terms
      (if F64.ne t.coefficient F64.one then F64.formatFloat t.coefficient else []))

/-! ## `units.go` -/

/-- The command `addUnit` on the loaded map: the map it stores, or the message it exits
with. -/
def addUnit (units : Registry) (name formula : String) : Except String Registry :=
  match GetUnit units name with
  | .ok _ => .error ("Unit '" ++ name ++ "' already defined")
  | .error _ =>
    match ParseExpression formula with
    | .error err => .error err
    | .ok expr =>
      match expr.Validate units with
      | some err => .error err
      | none =>
        match AddUnit units name formula with
        | .error err => .error err
        | .ok added => .ok added.2

/-- The loop of `removeUnit` over the unit names: the message of the first failure. -/
def removeScan (units : Registry) (name : String) : List String → Option String
  | [] => none
  | unitName :: rest =>
    if unitName = name then removeScan units name rest
    else
      match GetUnit units unitName with
      | .error err => some err
      | .ok unit =>
        match ParseExpression unit.formula with
        | .error err => some err
        | .ok expr =>
          if expr.RefersToUnit name then
            some ("Unit '" ++ name ++ "' still in use (at least by '" ++ unitName ++ "')")
          else removeScan units name rest

/-- The command `removeUnit` on the loaded map: the map it stores, or the message it
exits with. -/
def removeUnit (units : Registry) (name : String) : Except String Registry :=
  match GetUnit units name with
  | .error err => .error err
  | .ok unit =>
    if unit.IsBaseUnit then .error "Cannot delete a base unit"
    else
      match removeScan units name (GetUnitNames units) with
      | some err => .error err
      | none => RemoveUnit units name

/-- The command `eval` on the loaded map, with the recursion of `ReplaceDerivedUnits`
bounded by `fuel`: the text it prints, or the message it exits with; `none` when the
bound is reached. -/
def eval (units : Registry) (fuel : Nat) (arg : String) : Option (Except String String) :=
  match ParseExpression arg with
  | .error err => some (.error err)
  | .ok expr =>
    match expr.Validate units with
    | some err => some (.error err)
    | none =>
      match expr.ReplaceDerivedUnits units fuel with
      | none => none
      | some (.error err) => some (.error err)
      | some (.ok replaced) => some (.ok replaced.Normalize.format)

/-- The whole of the function `addUnit` of `units.go`, run as a process of its own on the
unit file: `LoadUnits` into the seeded map, the command, `StoreUnits`.  The result is the
content of the file it writes, or the message it exits with, the file left as it was. -/
def addUnitOnFile (file : Option String) (name formula : String) : Except String String :=
  match LoadUnits init file with
  | .error err => .error err
  | .ok units =>
    match addUnit units name formula with
    | .error err => .error err
    | .ok stored => .ok (StoreUnits stored)

/-- The whole of the function `removeUnit` of `units.go`, run as a process of its own on
the unit file. -/
def removeUnitOnFile (file : Option String) (name : String) : Except String String :=
  match LoadUnits init file with
  | .error err => .error err
  | .ok units =>
    match removeUnit units name with
    | .error err => .error err
    | .ok stored => .ok (StoreUnits stored)

/-- The whole of the function `eval` of `units.go`, run as a process of its own on the
unit file, the recursion of `ReplaceDerivedUnits` bounded by `fuel`. -/
def evalOnFile (file : Option String) (fuel : Nat) (arg : String) :
    Option (Except String String) :=
  match LoadUnits init file with
  | .error err => some (.error err)
  | .ok units => eval units fuel arg

/-! ## Registries and notions the statements use -/

/-- The names `init` seeds. -/
def seededNames : List String := ["s", "m", "kg", "A", "K", "mol", "cd"]

/-- The seeded map after `add km 1000*m`. -/
def kmRegistry : Registry := init ++ [⟨"km", "1000*m"⟩]

/-- The seeded map after `add km 1000*m` and `add h 3600*s`. -/
def hourRegistry : Registry := kmRegistry ++ [⟨"h", "3600*s"⟩]

/-- The seeded map after `add km 1000*m`, `add h 3600*s` and `add kmh km*h^-1`. -/
def kmhRegistry : Registry := hourRegistry ++ [⟨"kmh", "km*h^-1"⟩]

/-- The part of a token before its first `^`. -/
def beforeCaret (s : List Char) : List Char := s.takeWhile (fun c => c != '^')

/-- The part of a token after its first `^`. -/
def afterCaret (s : List Char) : List Char := (s.dropWhile (fun c => c != '^')).drop 1

/-- The sum of the exponents of the terms of `ts` whose unit is `u`. -/
def exponentSum (u : String) (ts : List term) : Int :=
  ((ts.filter (fun t => decide (t.unit = u))).map (fun t => t.exponent)).sum

/-- The exponent of the unit `u` in `ts`: that of its first term of unit `u`, 0 when
there is none. -/
def exponentOf (u : String) (ts : List term) : Int :=
  match ts.find? (fun t => decide (t.unit = u)) with
  | some t => t.exponent
  | none => 0

/-- The two terms "m^9223372036854775807*m" parses to. -/
def overflowTerms : List term := [⟨"m", 9223372036854775807⟩, ⟨"m", 1⟩]

/-- The derived unit named `a` has a formula with a term of unit `b`: an edge of the
dependency graph. -/
def DependsOn (units : Registry) (a b : String) : Prop :=
  ∃ unit expr, GetUnit units a = .ok unit ∧ unit.IsBaseUnit = false
    ∧ ParseExpression unit.formula = .ok expr ∧ ∃ t ∈ expr.terms, t.unit = b

/-- The dependency graph has no cycle: no unit depends on itself through a chain of one
or more edges. -/
def Acyclic (units : Registry) : Prop :=
  ∀ a, ¬ Relation.TransGen (DependsOn units) a a

/-- The formula of every derived unit parses and names registered units only. -/
def Resolvable (units : Registry) : Prop :=
  ∀ name unit, GetUnit units name = .ok unit → unit.IsBaseUnit = false →
    ∃ expr, ParseExpression unit.formula = .ok expr ∧ expr.Validate units = none

/-- The term names a base unit: a registered unit whose formula is its name. -/
def NamesBaseUnit (units : Registry) (t : term) : Prop :=
  ∃ unit, GetUnit units t.unit = .ok unit ∧ unit.IsBaseUnit = true

/-- A height for the units of `kmhRegistry`: kmh above km and h, these above the base
units. -/
def kmhRank (name : String) : Nat :=
  if name = "kmh" then 2 else if name = "km" ∨ name = "h" then 1 else 0

/-- A check of `Resolvable` on one unit: it is a base unit, or its formula parses and
names registered units only. -/
def formulaResolves (units : Registry) (unit : Unit) : Bool :=
  unit.IsBaseUnit ||
    (match ParseExpression unit.formula with
      | .ok expr => (expr.Validate units).isNone
      | .error _ => false)

/-- A check that `rank` falls along the edges out of one unit: it is a base unit, or
every term of its formula names a unit of lower rank. -/
def rankFalls (rank : String → Nat) (unit : Unit) : Bool :=
  unit.IsBaseUnit ||
    (match ParseExpression unit.formula with
      | .ok expr => expr.terms.all (fun t => decide (rank t.unit < rank unit.name))
      | .error _ => true)

/-- A unit name that printing and parsing carry unchanged: not empty, without `*` or `^`,
without white space at either end. -/
def plainName (u : String) : Prop :=
  u.data ≠ [] ∧ '*' ∉ u.data ∧ '^' ∉ u.data ∧ TrimSpace u.data = u.data

instance (u : String) : Decidable (plainName u) := by
  unfold plainName
  infer_instance

/-- The round trip of C1 on `e`: the normalized `e`, printed, parses, and the result
normalized has the coefficient and, up to order, the terms of the normalized `e`. -/
def RoundTrips (e : Expression) : Prop :=
  ∃ parsed, ParseExpression e.Normalize.format = .ok parsed
    ∧ parsed.Normalize.coefficient = e.Normalize.coefficient
    ∧ parsed.Normalize.terms.Perm e.Normalize.terms

instance (e : Expression) : Decidable (RoundTrips e) :=
  match h : ParseExpression e.Normalize.format with
  | .ok parsed =>
    if hc : parsed.Normalize.coefficient = e.Normalize.coefficient
        ∧ parsed.Normalize.terms.Perm e.Normalize.terms then
      isTrue ⟨parsed, h, hc⟩
    else
      isFalse (fun ⟨p, hp, hcp⟩ => hc (by rw [h] at hp; cases hp; exact hcp))
  | .error _ => isFalse (fun ⟨p, hp, _⟩ => by rw [h] at hp; cases hp)

/-- C1 as stated, on `e`: if no term of `e` has exponent 0, the round trip holds. -/
def RoundTripClaim (e : Expression) : Prop :=
  (∀ t ∈ e.terms, t.exponent ≠ 0) → RoundTrips e

instance (e : Expression) : Decidable (RoundTripClaim e) := by
  unfold RoundTripClaim
  infer_instance

/-- The expression 10*m^2*s^-1*m^-1. -/
def sampleExpression : Expression := ⟨F64.ofInt 10, [⟨"m", 2⟩, ⟨"s", -1⟩, ⟨"m", -1⟩]⟩

/-- The map `units` after a call of `AddUnit`, which writes it only where it returns no
error. -/
def afterAddUnit (units : Registry) (name formula : String) : Registry :=
  match AddUnit units name formula with
  | .ok added => added.2
  | .error _ => units

/-- The registry a command leaves for the next one: the map it stored, or, where it
exited with a message before storing, the map that was there. -/
def leftBy (units : Registry) (outcome : Except String Registry) : Registry :=
  match outcome with
  | .ok stored => stored
  | .error _ => units

/-- The text the format definition of the specification describes: "1" without terms,
else the renderings of the terms joined by `*`, after the coefficient and a `*` when the
coefficient is not 1. -/
def specFormat (e : Expression) : List Char :=
  if e.terms = [] then ['1']
  else
    (if F64.ne e.coefficient F64.one then F64.formatFloat e.coefficient ++ ['*'] else [])
      ++ ['*'].intercalate (e.terms.map term.format)

/-- The seeded map after `AddUnit("a", "b")` and `AddUnit("b", "a")`, as `LoadUnits`
builds it from a file with the lines a=b and b=a. -/
def cycleRegistry : Registry := init ++ [⟨"a", "b"⟩, ⟨"b", "a"⟩]

/-- A dependency chain of derived units: every name in it is that of a registered derived
unit, and each depends on the next. -/
def DerivedChain (units : Registry) (chain : List String) : Prop :=
  chain.Chain' (DependsOn units)
    ∧ ∀ a ∈ chain, ∃ unit, GetUnit units a = .ok unit ∧ unit.IsBaseUnit = false

/-- The unit named `a` refers directly to another unit `b`: its parsed formula has a term
of unit `b`. -/
def RefersTo (units : Registry) (a b : String) : Prop :=
  a ≠ b ∧ ∃ unit expr, GetUnit units a = .ok unit
    ∧ ParseExpression unit.formula = .ok expr ∧ ∃ t ∈ expr.terms, t.unit = b

/-- The formula of every registered unit parses, and every term of it names a registered
unit. -/
def AllResolve (units : Registry) : Prop :=
  ∀ name unit, GetUnit units name = .ok unit →
    ∃ expr, ParseExpression unit.formula = .ok expr
      ∧ ∀ t ∈ expr.terms, t.unit ∈ GetUnitNames units

/-- A check on one unit: its formula parses to the one term of its own name. -/
def namesItself (unit : Unit) : Bool :=
  match ParseExpression unit.formula with
  | .ok expr => expr.terms.all (fun t => decide (t.unit = unit.name))
  | .error _ => false

/-- The rational a finite float stands for; 0 for an infinity or NaN. -/
def F64.toRat : F64 → ℚ
  | .fin s m e => (if s then -1 else 1) * (m : ℚ) * (2 : ℚ) ^ e
  | _ => 0

/-- Is the float finite. -/
def F64.isFinite : F64 → Bool
  | .fin _ _ _ => true
  | _ => false

/-- The product of `v(unit)^exponent` over a list of terms. -/
def termsValue (v : String → ℚ) (ts : List term) : ℚ :=
  (ts.map (fun t => v t.unit ^ t.exponent)).prod

/-- The quantity an expression denotes when `v` gives the units their values: the
coefficient times the product of `v(unit)^exponent` over the terms. -/
def value (v : String → ℚ) (e : Expression) : ℚ :=
  e.coefficient.toRat * termsValue v e.terms

/-- The valuation `v` fits the registry: it is not zero on a registered unit, and on a
derived unit it is the value of the parsed formula. -/
def Valuation (units : Registry) (v : String → ℚ) : Prop :=
  (∀ name ∈ GetUnitNames units, v name ≠ 0)
  ∧ ∀ name unit expr, GetUnit units name = .ok unit → unit.IsBaseUnit = false →
      ParseExpression unit.formula = .ok expr → v name = value v expr

/-- The coefficient of `ReplaceDerivedUnits` after its loop has taken in the expansion
`expr` of a term of exponent `k`. -/
def nextCoefficient (coefficient : F64) (expr : Expression) (k : Int) : F64 :=
  if F64.ne expr.coefficient F64.one then F64.mul coefficient (F64.Pow expr.coefficient k)
  else coefficient

/-- One pass of the loop of `ReplaceDerivedUnits` computes exactly: no product of
exponents leaves the `int` range, and the new coefficient is finite and is the old one
times the power of the coefficient of `expr`, unrounded. -/
def exactStep (coefficient : F64) (expr : Expression) (k : Int) : Bool :=
  expr.terms.all (fun x => decide (minInt ≤ x.exponent * k ∧ x.exponent * k ≤ maxInt))
    && (nextCoefficient coefficient expr k).isFinite
    && decide ((nextCoefficient coefficient expr k).toRat
        = coefficient.toRat * expr.coefficient.toRat ^ k)

/-- The loop of `ReplaceDerivedUnits` computes exactly in every pass, `recurse` being the
recursive call and `exact` this check on it. -/
def exactLoop (units : Registry) (recurse : Expression → Option (Except String Expression))
    (exact : Expression → Bool) : List term → F64 → Bool
  | [], _ => true
  | item :: rest, coefficient =>
    match GetUnit units item.unit with
    | .error _ => true
    | .ok unit =>
      if unit.IsBaseUnit then exactLoop units recurse exact rest coefficient
      else
        match ParseExpression unit.formula with
        | .error _ => true
        | .ok parsed =>
          match recurse parsed with
          | some (.ok expr) =>
            exact parsed && exactStep coefficient expr item.exponent
              && exactLoop units recurse exact rest
                  (nextCoefficient coefficient expr item.exponent)
          | _ => true

/-- The run of `ReplaceDerivedUnits` on `e` computes exactly: no float operation rounds
or leaves the finite range, and no product of exponents overflows. -/
def exactRun (units : Registry) : Nat → Expression → Bool
  | 0, _ => true
  | fuel + 1, e =>
    exactLoop units (Expression.ReplaceDerivedUnits units fuel) (exactRun units fuel)
      e.terms e.coefficient

/-- Values for the units of `hourRegistry`: 1000 for km, 3600 for h, 1 for the base
units. -/
def hourValues (name : String) : ℚ :=
  if name = "km" then 1000 else if name = "h" then 3600 else 1
/-- A check of `Valuation` on every unit of the registry. -/
def valuationFits (units : Registry) (v : String → ℚ) : Bool :=
  units.all (fun unit => decide (v unit.name ≠ 0) &&
    (unit.IsBaseUnit ||
      (match ParseExpression unit.formula with
        | .ok expr => decide (v unit.name = value v expr)
        | .error _ => true)))

/-- The value 2 for every unit. -/
def allTwo (_ : String) : ℚ := 2

/-- Is the text in six-decimal fixed-point notation: an optional minus sign, one or more
decimal digits, a point and six decimal digits. -/
def isSixDecimal (s : List Char) : Bool :=
  let body : List Char :=
    match s with
    | c :: rest => if c = '-' then rest else s
    | [] => []
  match body.splitOn '.' with
  | [whole, frac] =>
    decide (whole ≠ []) && whole.all isDigit && decide (frac.length = 6) && frac.all isDigit
  | _ => false

/-- C16 as stated, on `e`: the text of `e` is the one the format definition describes,
and a coefficient that is written is in six-decimal fixed-point notation. -/
def FormatClaim (e : Expression) : Prop :=
  e.format = String.mk (specFormat e)
    ∧ (e.terms ≠ [] → F64.ne e.coefficient F64.one = true →
        isSixDecimal (F64.formatFloat e.coefficient) = true)

instance (e : Expression) : Decidable (FormatClaim e) := by
  unfold FormatClaim
  infer_instance

/-- The seeded map with the unit a of formula "b=m": what `LoadUnits` reads from the file
that the command `add a=b m` has written. -/
def splitRegistry : Registry := init ++ [⟨"a", "b=m"⟩]

/-! ## Theorems -/

/-- C2: in the registry with km = 1000*m, h = 3600*s and kmh = km*h^-1 (the registry the
three add commands build), "36*kmh" parses, validates, expands through two levels of
definitions and normalizes to the coefficient 10 and the two terms m^1 and s^-1. -/
theorem derived_of_derived_expansion :
    addUnit init "km" "1000*m" = .ok kmRegistry
    ∧ addUnit kmRegistry "h" "3600*s" = .ok hourRegistry
    ∧ addUnit hourRegistry "kmh" "km*h^-1" = .ok kmhRegistry
    ∧ ParseExpression "36*kmh" = .ok ⟨F64.ofInt 36, [⟨"kmh", 1⟩]⟩
    ∧ Expression.Validate kmhRegistry ⟨F64.ofInt 36, [⟨"kmh", 1⟩]⟩ = none
    ∧ Expression.ReplaceDerivedUnits kmhRegistry 3 ⟨F64.ofInt 36, [⟨"kmh", 1⟩]⟩
        = some (.ok ⟨F64.ofInt 10, [⟨"m", 1⟩, ⟨"s", -1⟩]⟩)
    ∧ Expression.Normalize ⟨F64.ofInt 10, [⟨"m", 1⟩, ⟨"s", -1⟩]⟩
        = ⟨F64.ofInt 10, [⟨"m", 1⟩, ⟨"s", -1⟩]⟩
    ∧ F64.ofInt 10 = .fin false (5 * 2 ^ 50) (-49) := by
  decide!

/-- C3: with km = 1000*m, "2*km^2" expands and normalizes to the coefficient
1000^2 * 2 = 2000000 and the single term m^2, printed as "2000000.000000*m^2". -/
theorem coefficient_propagation :
    ParseExpression "2*km^2" = .ok ⟨F64.ofInt 2, [⟨"km", 2⟩]⟩
    ∧ Expression.ReplaceDerivedUnits kmRegistry 2 ⟨F64.ofInt 2, [⟨"km", 2⟩]⟩
        = some (.ok ⟨F64.ofInt 2000000, [⟨"m", 2⟩]⟩)
    ∧ Expression.Normalize ⟨F64.ofInt 2000000, [⟨"m", 2⟩]⟩ = ⟨F64.ofInt 2000000, [⟨"m", 2⟩]⟩
    ∧ F64.ofInt 2000000 = F64.ofInt (1000 ^ 2 * 2)
    ∧ F64.mul (F64.ofInt 2) (F64.Pow (F64.ofInt 1000) 2) = F64.ofInt 2000000
    ∧ Expression.format ⟨F64.ofInt 2000000, [⟨"m", 2⟩]⟩ = "2000000.000000*m^2" := by
  decide!

/-- C4: with km and h defined as 1000*m and 3600*s, the eval command prints
"10.000000*m*s^-1" for "36*km*h^-1" ("10.000000*s^-1*m" should the map of `Normalize`
list s first), not the "10*m*s^-1" of the usage text. -/
theorem eval_usage_example :
    eval hourRegistry 2 "36*km*h^-1" = some (.ok "10.000000*m*s^-1")
    ∧ Expression.format ⟨F64.ofInt 10, [⟨"s", -1⟩, ⟨"m", 1⟩]⟩ = "10.000000*s^-1*m"
    ∧ "10.000000*m*s^-1" ≠ "10*m*s^-1" ∧ "10.000000*s^-1*m" ≠ "10*m*s^-1" := by
  decide!

/-- C5: on the seeded registry the command `add 2 2` succeeds, and the unit it creates
has its name for formula: `IsBaseUnit` holds of it, an eighth base unit. -/
theorem add_creates_base_unit :
    addUnit init "2" "2" = .ok (init ++ [⟨"2", "2"⟩])
    ∧ Unit.IsBaseUnit ⟨"2", "2"⟩ = true
    ∧ "2" ∉ seededNames
    ∧ GetUnit (init ++ [⟨"2", "2"⟩]) "2" = .ok ⟨"2", "2"⟩ := by
  decide!

theorem caret_split (s : List Char) (h : '^' ∈ s) :
    s = beforeCaret s ++ '^' :: afterCaret s := by
  unfold beforeCaret afterCaret
  induction s with
  | nil => simp at h
  | cons c cs ih =>
    by_cases hc : c = '^'
    · subst hc; simp [List.takeWhile, List.dropWhile]
    · have h2 : '^' ∈ cs := by
        rcases List.mem_cons.1 h with h1 | h1
        · exact absurd h1.symm hc
        · exact h1
      have hb : (c != '^') = true := by simp [hc]
      rw [List.takeWhile_cons, List.dropWhile_cons]
      simp only [hb, if_true, List.cons_append]
      exact congrArg (List.cons c) (ih h2)

theorem caret_not_mem_before (s : List Char) : '^' ∉ beforeCaret s := by
  unfold beforeCaret
  intro h
  have := List.mem_takeWhile_imp h
  simp at this

theorem beforeCaret_of_not_mem (s : List Char) (h : '^' ∉ s) : beforeCaret s = s := by
  unfold beforeCaret
  rw [List.takeWhile_eq_self_iff]
  intro x hx
  simp
  rintro rfl
  exact h hx

theorem splitOn_of_not_mem (c : Char) (s : List Char) (h : c ∉ s) : s.splitOn c = [s] := by
  unfold List.splitOn
  apply List.splitOnP_eq_single
  intro x hx hp
  simp at hp
  subst hp
  exact h hx

theorem splitOn_of_mem (s : List Char) (h : '^' ∈ s) :
    s.splitOn '^' = beforeCaret s :: (afterCaret s).splitOn '^' := by
  conv_lhs => rw [caret_split s h]
  unfold List.splitOn
  apply List.splitOnP_first
  · intro x hx hp
    simp at hp
    subst hp
    exact caret_not_mem_before s hx
  · simp

theorem count_of_mem (s : List Char) (h : '^' ∈ s) :
    s.count '^' = (afterCaret s).count '^' + 1 := by
  conv_lhs => rw [caret_split s h]
  rw [List.count_append, List.count_cons_self, List.count_eq_zero_of_not_mem (caret_not_mem_before s)]
  omega

theorem parseTerm_no_caret (str : List Char) (h : '^' ∉ str) :
    parseTerm str =
      if (TrimSpace str).length = 0 then .error ("Invalid term '" ++ String.mk str ++ "'")
      else .ok ⟨String.mk (TrimSpace str), 1⟩ := by
  unfold parseTerm
  rw [splitOn_of_not_mem _ str h]

theorem parseTerm_one_caret (str : List Char) (h : '^' ∈ str) (h2 : '^' ∉ afterCaret str) :
    parseTerm str =
      if (TrimSpace (beforeCaret str)).length = 0 then
        .error ("Invalid term '" ++ String.mk str ++ "'")
      else
        match Atoi (TrimSpace (afterCaret str)) with
        | none => .error ("Invalid term '" ++ String.mk str ++ "'")
        | some exp => .ok ⟨String.mk (TrimSpace (beforeCaret str)), exp⟩ := by
  unfold parseTerm
  rw [splitOn_of_mem str h, splitOn_of_not_mem _ _ h2]

theorem parseTerm_many_carets (str : List Char) (h : '^' ∈ str) (h2 : '^' ∈ afterCaret str) :
    parseTerm str = .error ("Invalid term '" ++ String.mk str ++ "'") := by
  unfold parseTerm
  rw [splitOn_of_mem str h, splitOn_of_mem _ h2]
  cases hs : (afterCaret (afterCaret str)).splitOn '^' with
  | nil => exact absurd hs (List.splitOnP_ne_nil _ _)
  | cons a l => rfl

/-- C9: `parseTerm` fails exactly when the token has more than one `^`, or its part
before the first `^` is empty once trimmed, or it has a `^` and the trimmed part after it
is no integer for `strconv.Atoi`; a term it returns has the trimmed part before the `^`
for unit, and for exponent the integer after the `^`, or 1 without a `^`.  The tokens
"m^2^3" and "" are rejected. -/
theorem parseTerm_characterisation (str : List Char) :
    ((∃ err, parseTerm str = .error err) ↔
        (1 < str.count '^' ∨ TrimSpace (beforeCaret str) = [] ∨
          ('^' ∈ str ∧ Atoi (TrimSpace (afterCaret str)) = none)))
    ∧ (∀ t, parseTerm str = .ok t →
        t.unit = String.mk (TrimSpace (beforeCaret str)) ∧
        (if '^' ∈ str then Atoi (TrimSpace (afterCaret str)) = some t.exponent
          else t.exponent = 1))
    ∧ parseTerm "m^2^3".data = .error "Invalid term 'm^2^3'"
    ∧ parseTerm "".data = .error "Invalid term ''" := by
  refine ⟨?_, ?_, by decide!, by decide!⟩
  · by_cases h : '^' ∈ str
    · by_cases h2 : '^' ∈ afterCaret str
      · rw [parseTerm_many_carets str h h2]
        have := count_of_mem str h
        have := List.count_pos_iff.2 h2
        constructor
        · intro _; left; omega
        · intro _; exact ⟨_, rfl⟩
      · rw [parseTerm_one_caret str h h2]
        have hc := count_of_mem str h
        have hc2 := List.count_eq_zero_of_not_mem h2
        by_cases hb : TrimSpace (beforeCaret str) = []
        · simp [hb]
        · have hl : (TrimSpace (beforeCaret str)).length ≠ 0 := by
            simpa [List.length_eq_zero] using hb
          rw [if_neg hl]
          cases ha : Atoi (TrimSpace (afterCaret str)) with
          | none => simp [h]
          | some v => simp [hb, hc, hc2]
    · rw [parseTerm_no_caret str h, beforeCaret_of_not_mem str h]
      have hc := List.count_eq_zero_of_not_mem h
      by_cases hb : TrimSpace str = []
      · simp [hb]
      · have hl : (TrimSpace str).length ≠ 0 := by
          simpa [List.length_eq_zero] using hb
        rw [if_neg hl]
        simp [hb, hc, h]
  · intro t ht
    by_cases h : '^' ∈ str
    · by_cases h2 : '^' ∈ afterCaret str
      · rw [parseTerm_many_carets str h h2] at ht
        cases ht
      · rw [parseTerm_one_caret str h h2] at ht
        split at ht
        · cases ht
        · split at ht
          · cases ht
          · rename_i v hv
            cases ht
            simp [h, hv]
    · rw [parseTerm_no_caret str h] at ht
      rw [beforeCaret_of_not_mem str h]
      split at ht
      · cases ht
      · cases ht
        simp [h]

theorem parseLoop_pos (i : Nat) (hi : i ≠ 0) (tok : List Char) (rest : List (List Char))
    (coeff : F64) (terms : List term) :
    parseLoop i (tok :: rest) coeff terms =
      match parseTerm tok with
      | .error err => .error err
      | .ok t => parseLoop (i + 1) rest coeff (terms ++ [t]) := by
  rw [parseLoop]
  simp only [if_neg hi]

theorem parseLoop_ok_iff (toks : List (List Char)) :
    ∀ (i : Nat), i ≠ 0 → ∀ (coeff : F64) (terms : List term) (e : Expression),
      parseLoop i toks coeff terms = .ok e ↔
        e.coefficient = coeff ∧
          ∃ ts, List.Forall₂ (fun tok t => parseTerm tok = .ok t) toks ts ∧
            e.terms = terms ++ ts := by
  induction toks with
  | nil =>
    intro i _ coeff terms e
    rw [parseLoop]
    constructor
    · intro h
      cases h
      exact ⟨rfl, [], List.Forall₂.nil, by simp⟩
    · rintro ⟨hc, ts, hf, ht⟩
      cases hf
      cases e
      simp at hc ht
      simp [hc, ht]
  | cons tok rest ih =>
    intro i hi coeff terms e
    rw [parseLoop_pos i hi]
    cases hp : parseTerm tok with
    | error err =>
      constructor
      · intro h; cases h
      · rintro ⟨_, ts, hf, _⟩
        cases hf with
        | cons h1 _ => rw [hp] at h1; cases h1
    | ok t =>
      simp only
      rw [ih (i + 1) (Nat.succ_ne_zero i)]
      constructor
      · rintro ⟨hc, ts, hf, ht⟩
        refine ⟨hc, t :: ts, List.Forall₂.cons hp hf, ?_⟩
        simpa using ht
      · rintro ⟨hc, ts, hf, ht⟩
        cases hf with
        | cons h1 h2 =>
          rw [hp] at h1
          cases h1
          exact ⟨hc, _, h2, by simpa using ht⟩

theorem parseLoop_error_iff (toks : List (List Char)) :
    ∀ (i : Nat), i ≠ 0 → ∀ (coeff : F64) (terms : List term),
      (∃ err, parseLoop i toks coeff terms = .error err) ↔
        ∃ tok ∈ toks, ∃ err, parseTerm tok = .error err := by
  induction toks with
  | nil =>
    intro i _ coeff terms
    rw [parseLoop]
    simp
  | cons tok rest ih =>
    intro i hi coeff terms
    rw [parseLoop_pos i hi]
    cases hp : parseTerm tok with
    | error err =>
      simp only [List.mem_cons, exists_eq_or_imp]
      constructor
      · intro _; exact Or.inl ⟨err, hp⟩
      · intro _; exact ⟨err, rfl⟩
    | ok t =>
      simp only
      rw [ih (i + 1) (Nat.succ_ne_zero i)]
      simp only [List.mem_cons, exists_eq_or_imp, hp]
      simp

/-- C10: the input is split on `*` into tokens `t0 :: rest`.  If `t0`, trimmed, parses as
a float `c`, `ParseExpression` returns the coefficient `c` and the terms `parseTerm`
gives for `rest`, in order; otherwise it returns the coefficient 1 and the terms
`parseTerm` gives for `t0 :: rest`.  It fails exactly when `parseTerm` fails on one of
those tokens.  So "5" is the coefficient 5 without terms, and the "2" of "m*2" is a
term. -/
theorem ParseExpression_characterisation (str : String) :
    (∃ t0 rest, str.data.splitOn '*' = t0 :: rest
      ∧ (∀ c, F64.ParseFloat (TrimSpace t0) = some c →
          (∀ e, ParseExpression str = .ok e ↔
            e.coefficient = c ∧
              List.Forall₂ (fun tok t => parseTerm tok = .ok t) rest e.terms)
          ∧ ((∃ err, ParseExpression str = .error err) ↔
              ∃ tok ∈ rest, ∃ err, parseTerm tok = .error err))
      ∧ (F64.ParseFloat (TrimSpace t0) = none →
          (∀ e, ParseExpression str = .ok e ↔
            e.coefficient = F64.one ∧
              List.Forall₂ (fun tok t => parseTerm tok = .ok t) (t0 :: rest) e.terms)
          ∧ ((∃ err, ParseExpression str = .error err) ↔
              ∃ tok ∈ t0 :: rest, ∃ err, parseTerm tok = .error err)))
    ∧ ParseExpression "5" = .ok ⟨F64.ofInt 5, []⟩
    ∧ ParseExpression "m*2" = .ok ⟨F64.one, [⟨"m", 1⟩, ⟨"2", 1⟩]⟩ := by
  refine ⟨?_, by decide!, by decide!⟩
  cases hs : str.data.splitOn '*' with
  | nil => exact absurd hs (List.splitOnP_ne_nil _ _)
  | cons t0 rest =>
    refine ⟨t0, rest, rfl, ?_, ?_⟩
    · intro c hc
      have hp : ParseExpression str = parseLoop 1 rest c [] := by
        unfold ParseExpression
        rw [hs, parseLoop]
        simp [hc]
      rw [hp]
      refine ⟨fun e => ?_, parseLoop_error_iff rest 1 one_ne_zero c []⟩
      rw [parseLoop_ok_iff rest 1 one_ne_zero]
      simp
    · intro hc
      have hp : ParseExpression str =
          match parseTerm t0 with
          | .error err => .error err
          | .ok t => parseLoop 1 rest F64.one ([] ++ [t]) := by
        unfold ParseExpression
        rw [hs, parseLoop]
        simp [hc]
      rw [hp]
      cases hp0 : parseTerm t0 with
      | error err =>
        simp only [List.mem_cons, exists_eq_or_imp]
        constructor
        · intro e
          rcases e with ⟨ec, et⟩
          constructor
          · intro h; cases h
          · rintro ⟨_, hf⟩
            cases hf with
            | cons h1 _ => rw [hp0] at h1; cases h1
        · constructor
          · intro _; exact Or.inl ⟨err, hp0⟩
          · intro _; exact ⟨err, rfl⟩
      | ok t =>
        simp only
        constructor
        · intro e
          rcases e with ⟨ec, et⟩
          rw [parseLoop_ok_iff rest 1 one_ne_zero]
          constructor
          · rintro ⟨hc, ts, hf, ht⟩
            refine ⟨hc, ?_⟩
            simp only at ht
            rw [ht]
            exact List.Forall₂.cons hp0 hf
          · rintro ⟨hc, hf⟩
            cases hf with
            | cons h1 h2 =>
              rw [hp0] at h1
              cases h1
              exact ⟨hc, _, h2, rfl⟩
        · rw [parseLoop_error_iff rest 1 one_ne_zero]
          simp only [List.mem_cons, exists_eq_or_imp, hp0]
          simp

theorem wrap64_add_wrap64 (a b : Int) : wrap64 (wrap64 a + b) = wrap64 (a + b) := by
  unfold wrap64
  omega

theorem wrap64_of_range (a : Int) (h : minInt ≤ a ∧ a ≤ maxInt) : wrap64 a = a := by
  unfold minInt maxInt at h
  unfold wrap64
  omega

theorem wrap64_range (a : Int) : minInt ≤ wrap64 a ∧ wrap64 a ≤ maxInt := by
  unfold minInt maxInt wrap64
  omega

theorem addTerm_of_not_mem (m : List term) (item : term)
    (h : item.unit ∉ m.map (fun t => t.unit)) : addTerm m item = m ++ [item] := by
  induction m with
  | nil => rfl
  | cons x xs ih =>
    simp only [List.map_cons, List.mem_cons, not_or] at h
    rw [addTerm, if_neg (fun hx => h.1 hx.symm), ih h.2]
    rfl

theorem addTerm_units (m : List term) (item : term) :
    (addTerm m item).map (fun t => t.unit) =
      if item.unit ∈ m.map (fun t => t.unit) then m.map (fun t => t.unit)
      else m.map (fun t => t.unit) ++ [item.unit] := by
  induction m with
  | nil => simp [addTerm]
  | cons x xs ih =>
    rw [addTerm]
    by_cases hx : x.unit = item.unit
    · simp [hx]
    · rw [if_neg hx, List.map_cons, ih]
      have hx2 : ¬ item.unit = x.unit := fun h => hx h.symm
      by_cases hm : item.unit ∈ xs.map (fun t => t.unit)
      · simp [hm]
      · simp [hm, hx2]

theorem addTerm_nodup (m : List term) (item : term) (h : (m.map (fun t => t.unit)).Nodup) :
    ((addTerm m item).map (fun t => t.unit)).Nodup := by
  rw [addTerm_units]
  split
  · exact h
  · rename_i hm
    rw [List.nodup_append]
    refine ⟨h, List.nodup_singleton _, ?_⟩
    intro a ha hb
    simp only [List.mem_singleton] at hb
    subst hb
    exact hm ha

theorem exponentOf_addTerm (m : List term) (item : term) (u : String) :
    exponentOf u (addTerm m item) =
      if item.unit = u then
        (if u ∈ m.map (fun t => t.unit) then wrap64 (exponentOf u m + item.exponent)
          else item.exponent)
      else exponentOf u m := by
  induction m with
  | nil =>
    by_cases hu : item.unit = u
    · simp [addTerm, exponentOf, hu]
    · simp [addTerm, exponentOf, hu]
  | cons x xs ih =>
    rw [addTerm]
    by_cases hx : x.unit = item.unit
    · rw [if_pos hx]
      by_cases hu : item.unit = u
      · have hxu : x.unit = u := hx.trans hu
        simp [exponentOf, hu, hxu]
      · have hxu : ¬ x.unit = u := fun h => hu (hx.symm.trans h)
        simp [exponentOf, hu, hxu]
    · rw [if_neg hx]
      by_cases hxu : x.unit = u
      · have hu : ¬ item.unit = u := fun h => hx (hxu.trans h.symm)
        simp [exponentOf, hu, hxu]
      · have e1 : exponentOf u (x :: addTerm xs item) = exponentOf u (addTerm xs item) := by
          simp [exponentOf, hxu]
        have e2 : exponentOf u (x :: xs) = exponentOf u xs := by
          simp [exponentOf, hxu]
        have hne : ¬ u = x.unit := fun h => hxu h.symm
        rw [e1, e2, ih]
        simp [hne]

theorem foldl_addTerm_nodup (ts : List term) :
    ∀ m : List term, (m.map (fun t => t.unit)).Nodup →
      ((ts.foldl addTerm m).map (fun t => t.unit)).Nodup := by
  induction ts with
  | nil => intro m h; exact h
  | cons x xs ih => intro m h; exact ih _ (addTerm_nodup m x h)

theorem exponentSum_cons (u : String) (x : term) (ts : List term) :
    exponentSum u (x :: ts) = (if x.unit = u then x.exponent else 0) + exponentSum u ts := by
  unfold exponentSum
  by_cases h : x.unit = u
  · simp [List.filter_cons, h]
  · simp [List.filter_cons, h]

theorem exponentOf_of_not_mem (u : String) (m : List term)
    (h : u ∉ m.map (fun t => t.unit)) : exponentOf u m = 0 := by
  unfold exponentOf
  have : m.find? (fun t => decide (t.unit = u)) = none := by
    rw [List.find?_eq_none]
    intro x hx hxu
    simp only [decide_eq_true_eq] at hxu
    exact h (List.mem_map.2 ⟨x, hx, hxu⟩)
  rw [this]

theorem foldl_addTerm_exponentOf (u : String) (ts : List term) :
    ∀ (m : List term) (s : Int),
      (∀ t ∈ ts, minInt ≤ t.exponent ∧ t.exponent ≤ maxInt) →
      exponentOf u m = wrap64 s → (u ∉ m.map (fun t => t.unit) → s = 0) →
      exponentOf u (ts.foldl addTerm m) = wrap64 (s + exponentSum u ts) := by
  induction ts with
  | nil =>
    intro m s _ h _
    simpa [exponentSum] using h
  | cons x xs ih =>
    intro m s hr h h0
    have hx := hr x (List.mem_cons_self x xs)
    have hxs : ∀ t ∈ xs, minInt ≤ t.exponent ∧ t.exponent ≤ maxInt :=
      fun t ht => hr t (List.mem_cons_of_mem x ht)
    rw [List.foldl_cons, exponentSum_cons, ← Int.add_assoc]
    apply ih _ _ hxs
    · rw [exponentOf_addTerm]
      by_cases hu : x.unit = u
      · rw [if_pos hu, if_pos hu]
        by_cases hm : u ∈ m.map (fun t => t.unit)
        · rw [if_pos hm, h, wrap64_add_wrap64]
        · rw [if_neg hm, h0 hm, Int.zero_add, wrap64_of_range _ hx]
      · rw [if_neg hu, if_neg hu, Int.add_zero, h]
    · intro hn
      rw [addTerm_units] at hn
      by_cases hu : x.unit = u
      · exfalso
        apply hn
        split
        · rename_i hm; rw [← hu]; exact hm
        · simp [hu]
      · rw [if_neg hu, Int.add_zero]
        apply h0
        intro hm
        apply hn
        split
        · exact hm
        · exact List.mem_append_left _ hm

theorem exponentOf_filter (u : String) (m : List term)
    (h : (m.map (fun t => t.unit)).Nodup) :
    exponentOf u (m.filter (fun item => decide (item.exponent ≠ 0))) = exponentOf u m := by
  induction m with
  | nil => rfl
  | cons x xs ih =>
    rw [List.map_cons, List.nodup_cons] at h
    by_cases hx : x.exponent = 0
    · have hf : (x :: xs).filter (fun item => decide (item.exponent ≠ 0))
          = xs.filter (fun item => decide (item.exponent ≠ 0)) := by
        simp [List.filter_cons, hx]
      rw [hf, ih h.2]
      by_cases hu : x.unit = u
      · rw [exponentOf_of_not_mem u xs (hu ▸ h.1)]
        simp [exponentOf, hu, hx]
      · simp [exponentOf, hu]
    · have hf : (x :: xs).filter (fun item => decide (item.exponent ≠ 0))
          = x :: xs.filter (fun item => decide (item.exponent ≠ 0)) := by
        simp [List.filter_cons, hx]
      rw [hf]
      by_cases hu : x.unit = u
      · simp [exponentOf, hu]
      · have e1 : exponentOf u (x :: xs.filter (fun item => decide (item.exponent ≠ 0)))
            = exponentOf u (xs.filter (fun item => decide (item.exponent ≠ 0))) := by
          simp [exponentOf, hu]
        have e2 : exponentOf u (x :: xs) = exponentOf u xs := by
          simp [exponentOf, hu]
        rw [e1, e2, ih h.2]

theorem Normalize_units_nodup (e : Expression) :
    (e.Normalize.terms.map (fun t => t.unit)).Nodup := by
  unfold Expression.Normalize
  have h := foldl_addTerm_nodup e.terms [] List.nodup_nil
  exact (List.Sublist.map _ (List.filter_sublist _)).nodup h

theorem Normalize_exponent_ne_zero (e : Expression) :
    ∀ t ∈ e.Normalize.terms, t.exponent ≠ 0 := by
  intro t ht
  unfold Expression.Normalize at ht
  simpa using (List.mem_filter.1 ht).2

theorem foldl_addTerm_of_nodup (ts : List term) :
    ∀ m : List term, ((m ++ ts).map (fun t => t.unit)).Nodup → ts.foldl addTerm m = m ++ ts := by
  induction ts with
  | nil => intro m _; simp
  | cons x xs ih =>
    intro m h
    have hx : x.unit ∉ m.map (fun t => t.unit) := by
      rw [List.map_append, List.map_cons, List.nodup_append] at h
      intro hm
      exact h.2.2 hm (List.mem_cons_self _ _)
    rw [List.foldl_cons, addTerm_of_not_mem m x hx, ih]
    · simp
    · simpa using h

theorem Normalize_of_normal (c : F64) (ts : List term)
    (hn : (ts.map (fun t => t.unit)).Nodup) (hz : ∀ t ∈ ts, t.exponent ≠ 0) :
    Expression.Normalize ⟨c, ts⟩ = ⟨c, ts⟩ := by
  unfold Expression.Normalize
  simp only
  rw [foldl_addTerm_of_nodup ts [] (by simpa using hn)]
  simp only [List.nil_append, Expression.mk.injEq, true_and]
  rw [List.filter_eq_self]
  intro t ht
  simpa using hz t ht

/-- C7, as the code has it: `Normalize` keeps the coefficient, leaves at most one term for
a unit name and no term of exponent 0, and the exponent it leaves for a unit `u` (0 when
`u` has no term) is the sum of the exponents of the terms of unit `u`, wrapped to the
64-bit `int` as every `+=` of the code wraps: the sum itself when that is an `int`.
Parsing "m^2*m^-1" and normalizing leaves the one term m^1, printed "m". -/
theorem Normalize_postcondition (e : Expression)
    (h : ∀ t ∈ e.terms, minInt ≤ t.exponent ∧ t.exponent ≤ maxInt) :
    e.Normalize.coefficient = e.coefficient
    ∧ (e.Normalize.terms.map (fun t => t.unit)).Nodup
    ∧ (∀ t ∈ e.Normalize.terms, t.exponent ≠ 0)
    ∧ (∀ u, exponentOf u e.Normalize.terms = wrap64 (exponentSum u e.terms))
    ∧ (∀ u, minInt ≤ exponentSum u e.terms ∧ exponentSum u e.terms ≤ maxInt →
        exponentOf u e.Normalize.terms = exponentSum u e.terms)
    ∧ ParseExpression "m^2*m^-1" = .ok ⟨F64.one, [⟨"m", 2⟩, ⟨"m", -1⟩]⟩
    ∧ Expression.Normalize ⟨F64.one, [⟨"m", 2⟩, ⟨"m", -1⟩]⟩ = ⟨F64.one, [⟨"m", 1⟩]⟩
    ∧ Expression.format ⟨F64.one, [⟨"m", 1⟩]⟩ = "m" := by
  have hsum : ∀ u, exponentOf u e.Normalize.terms = wrap64 (exponentSum u e.terms) := by
    intro u
    have h0 : exponentOf u [] = wrap64 0 := rfl
    have hf := foldl_addTerm_exponentOf u e.terms [] 0 h h0 (fun _ => rfl)
    rw [Int.zero_add] at hf
    unfold Expression.Normalize
    simp only
    rw [exponentOf_filter u _ (foldl_addTerm_nodup e.terms [] List.nodup_nil), hf]
  refine ⟨rfl, Normalize_units_nodup e, Normalize_exponent_ne_zero e, hsum, ?_,
    by decide!, by decide!, by decide!⟩
  intro u hu
  rw [hsum u, wrap64_of_range _ hu]

/-- C7 at the two terms "m^9223372036854775807*m" parses to: both exponents are `int`s,
and the exponent left for m is their sum wrapped, the least `int`. -/
theorem Normalize_postcondition_witness :
    (∀ t ∈ overflowTerms, minInt ≤ t.exponent ∧ t.exponent ≤ maxInt)
    ∧ exponentOf "m" (Expression.Normalize ⟨F64.one, overflowTerms⟩).terms
        = wrap64 (exponentSum "m" overflowTerms)
    ∧ wrap64 (exponentSum "m" overflowTerms) = minInt :=
  ⟨by decide,
    (Normalize_postcondition ⟨F64.one, overflowTerms⟩ (by decide)).2.2.2.1 "m",
    by decide⟩

/-- C7 as stated fails where the sum of the exponents is no `int`:
"m^9223372036854775807*m" parses to two terms of unit m whose exponents sum to 2^63,
while `Normalize` leaves the exponent -2^63. -/
theorem Normalize_sum_overflows :
    ParseExpression "m^9223372036854775807*m" = .ok ⟨F64.one, overflowTerms⟩
    ∧ exponentSum "m" overflowTerms = 9223372036854775808
    ∧ (Expression.Normalize ⟨F64.one, overflowTerms⟩).terms = [⟨"m", -9223372036854775808⟩]
    ∧ exponentOf "m" (Expression.Normalize ⟨F64.one, overflowTerms⟩).terms
        ≠ exponentSum "m" overflowTerms := by
  decide!

/-- C8: normalizing a normalized expression changes nothing, nor does it when the map of
the first `Normalize` listed its terms in another order `ts`: the result has the same
coefficient and the same terms up to order. -/
theorem Normalize_idempotent (e : Expression) :
    e.Normalize.Normalize = e.Normalize
    ∧ ∀ ts : List term, ts.Perm e.Normalize.terms →
        (Expression.Normalize ⟨e.Normalize.coefficient, ts⟩).coefficient = e.Normalize.coefficient
        ∧ (Expression.Normalize ⟨e.Normalize.coefficient, ts⟩).terms.Perm e.Normalize.terms := by
  constructor
  · exact Normalize_of_normal _ _ (Normalize_units_nodup e) (Normalize_exponent_ne_zero e)
  · intro ts hp
    have hn : (ts.map (fun t => t.unit)).Nodup :=
      ((hp.map _).nodup_iff).2 (Normalize_units_nodup e)
    have hz : ∀ t ∈ ts, t.exponent ≠ 0 :=
      fun t ht => Normalize_exponent_ne_zero e t (hp.mem_iff.1 ht)
    rw [Normalize_of_normal _ ts hn hz]
    exact ⟨rfl, hp⟩

theorem GetUnit_ok_iff (units : Registry) (name : String) (unit : Unit) :
    GetUnit units name = .ok unit ↔ lookup units name = some unit := by
  unfold GetUnit
  cases lookup units name with
  | none => simp
  | some u => simp

theorem GetUnit_ok_mem (units : Registry) (name : String) (unit : Unit)
    (h : GetUnit units name = .ok unit) : unit ∈ units ∧ unit.name = name := by
  rw [GetUnit_ok_iff] at h
  unfold lookup at h
  exact ⟨List.mem_of_find?_eq_some h, by simpa using List.find?_some h⟩

theorem GetUnit_ok_name_mem (units : Registry) (name : String) (unit : Unit)
    (h : GetUnit units name = .ok unit) : name ∈ units.map (fun u => u.name) := by
  have := GetUnit_ok_mem units name unit h
  exact List.mem_map.2 ⟨unit, this.1, this.2⟩

theorem validateLoop_none_iff (units : Registry) (ts : List term) :
    validateLoop units ts = none ↔ ∀ t ∈ ts, ∃ unit, GetUnit units t.unit = .ok unit := by
  induction ts with
  | nil => simp [validateLoop]
  | cons x xs ih =>
    rw [validateLoop]
    cases hx : GetUnit units x.unit with
    | error err =>
      simp only [List.mem_cons, forall_eq_or_imp, hx]
      simp
    | ok u =>
      simp only [List.mem_cons, forall_eq_or_imp, hx]
      rw [ih]
      simp

theorem replaceLoop_ok (units : Registry)
    (recurse : Expression → Option (Except String Expression)) (items : List term) :
    ∀ (terms : List term) (coefficient : F64),
      (∀ item ∈ items, ∃ unit, GetUnit units item.unit = .ok unit ∧
        (unit.IsBaseUnit = false →
          ∃ parsed r, ParseExpression unit.formula = .ok parsed ∧ recurse parsed = some (.ok r)
            ∧ ∀ t ∈ r.terms, NamesBaseUnit units t)) →
      (∀ t ∈ terms, NamesBaseUnit units t) →
      ∃ result, replaceLoop units recurse items terms coefficient = some (.ok result)
        ∧ ∀ t ∈ result.terms, NamesBaseUnit units t := by
  induction items with
  | nil =>
    intro terms coefficient _ hb
    exact ⟨⟨coefficient, terms⟩, rfl, hb⟩
  | cons item rest ih =>
    intro terms coefficient hi hb
    obtain ⟨unit, hu, hd⟩ := hi item (List.mem_cons_self _ _)
    have hrest : ∀ it ∈ rest, ∃ unit, GetUnit units it.unit = .ok unit ∧
        (unit.IsBaseUnit = false →
          ∃ parsed r, ParseExpression unit.formula = .ok parsed ∧ recurse parsed = some (.ok r)
            ∧ ∀ t ∈ r.terms, NamesBaseUnit units t) :=
      fun it hit => hi it (List.mem_cons_of_mem _ hit)
    rw [replaceLoop, hu]
    simp only
    cases hbase : unit.IsBaseUnit with
    | true =>
      simp only [if_true]
      apply ih _ _ hrest
      intro t ht
      rcases List.mem_append.1 ht with h1 | h1
      · exact hb t h1
      · rw [List.mem_singleton] at h1
        subst h1
        exact ⟨unit, hu, hbase⟩
    | false =>
      obtain ⟨parsed, r, hp, hr, hrb⟩ := hd hbase
      simp only [Bool.false_eq_true, if_false, hp, hr]
      apply ih _ _ hrest
      intro t ht
      rcases List.mem_append.1 ht with h1 | h1
      · exact hb t h1
      · obtain ⟨x, hx, rfl⟩ := List.mem_map.1 h1
        exact hrb x hx

theorem ReplaceDerivedUnits_total (units : Registry) (hres : Resolvable units)
    (hac : Acyclic units) :
    ∀ (k : Nat) (path : List String), path.Nodup →
      (∀ p ∈ path, p ∈ units.map (fun u => u.name)) →
      units.length + 1 ≤ k + path.length →
      ∀ e : Expression, e.Validate units = none →
        (∀ t ∈ e.terms, ∀ p ∈ path, Relation.TransGen (DependsOn units) p t.unit) →
        ∃ result, e.ReplaceDerivedUnits units k = some (.ok result)
          ∧ ∀ t ∈ result.terms, NamesBaseUnit units t := by
  intro k
  induction k with
  | zero =>
    intro path hnd hsub hlen
    exfalso
    have hle : path.length ≤ (units.map (fun u => u.name)).length :=
      (hnd.subperm hsub).length_le
    rw [List.length_map] at hle
    omega
  | succ k ih =>
    intro path hnd hsub hlen e hv hchain
    rw [Expression.ReplaceDerivedUnits]
    apply replaceLoop_ok
    · intro item hitem
      unfold Expression.Validate at hv
      obtain ⟨unit, hu⟩ := (validateLoop_none_iff units e.terms).1 hv item hitem
      refine ⟨unit, hu, fun hbase => ?_⟩
      obtain ⟨parsed, hp, hpv⟩ := hres item.unit unit hu hbase
      have hnot : item.unit ∉ path := by
        intro hmem
        exact hac item.unit (hchain item hitem item.unit hmem)
      have hstep : ∀ t ∈ parsed.terms, DependsOn units item.unit t.unit :=
        fun t ht => ⟨unit, parsed, hu, hbase, hp, t, ht, rfl⟩
      obtain ⟨r, hr, hrb⟩ := ih (item.unit :: path) (List.nodup_cons.2 ⟨hnot, hnd⟩)
        (by
          intro p hp'
          rcases List.mem_cons.1 hp' with h1 | h1
          · rw [h1]; exact GetUnit_ok_name_mem units item.unit unit hu
          · exact hsub p h1)
        (by simp only [List.length_cons]; omega)
        parsed hpv
        (by
          intro t ht p hp'
          rcases List.mem_cons.1 hp' with h1 | h1
          · rw [h1]; exact Relation.TransGen.single (hstep t ht)
          · exact Relation.TransGen.tail (hchain item hitem p h1) (hstep t ht))
      exact ⟨parsed, r, hp, hr, hrb⟩
    · intro t ht
      cases ht

theorem replaceLoop_mono (units : Registry)
    (rec1 rec2 : Expression → Option (Except String Expression))
    (h : ∀ x r, rec1 x = some r → rec2 x = some r) (items : List term) :
    ∀ (terms : List term) (coefficient : F64) (r : Except String Expression),
      replaceLoop units rec1 items terms coefficient = some r →
      replaceLoop units rec2 items terms coefficient = some r := by
  induction items with
  | nil => intro terms coefficient r hr; exact hr
  | cons item rest ih =>
    intro terms coefficient r hr
    rw [replaceLoop] at hr ⊢
    cases hu : GetUnit units item.unit with
    | error err => rw [hu] at hr; exact hr
    | ok unit =>
      rw [hu] at hr
      simp only at hr ⊢
      cases hbase : unit.IsBaseUnit with
      | true =>
        rw [hbase] at hr
        simp only [if_true] at hr ⊢
        exact ih _ _ _ hr
      | false =>
        rw [hbase] at hr
        simp only [Bool.false_eq_true, if_false] at hr ⊢
        cases hp : ParseExpression unit.formula with
        | error err => rw [hp] at hr; exact hr
        | ok parsed =>
          rw [hp] at hr
          simp only at hr ⊢
          cases h1 : rec1 parsed with
          | none => rw [h1] at hr; cases hr
          | some r1 =>
            rw [h1] at hr
            rw [h parsed r1 h1]
            cases r1 with
            | error err => exact hr
            | ok expr => exact ih _ _ _ hr

theorem ReplaceDerivedUnits_mono (units : Registry) :
    ∀ (k : Nat) (e : Expression) (r : Except String Expression),
      e.ReplaceDerivedUnits units k = some r → e.ReplaceDerivedUnits units (k + 1) = some r := by
  intro k
  induction k with
  | zero => intro e r h; rw [Expression.ReplaceDerivedUnits] at h; cases h
  | succ k ih =>
    intro e r h
    rw [Expression.ReplaceDerivedUnits] at h ⊢
    exact replaceLoop_mono units _ _ ih _ _ _ _ h

theorem ReplaceDerivedUnits_mono_le (units : Registry) (e : Expression)
    (r : Except String Expression) (k : Nat) (h : e.ReplaceDerivedUnits units k = some r) :
    ∀ n, k ≤ n → e.ReplaceDerivedUnits units n = some r := by
  intro n hn
  induction hn with
  | refl => exact h
  | step _ ih => exact ReplaceDerivedUnits_mono units _ e r ih

theorem acyclic_of_rank (units : Registry) (rank : String → Nat)
    (h : ∀ a b, DependsOn units a b → rank b < rank a) : Acyclic units := by
  have ht : ∀ a b, Relation.TransGen (DependsOn units) a b → rank b < rank a := by
    intro a b hab
    induction hab with
    | single h1 => exact h _ _ h1
    | tail _ h2 ih => exact Nat.lt_trans (h _ _ h2) ih
  intro a ha
  exact Nat.lt_irrefl _ (ht a a ha)

/-- C6: in a registry whose derived units have formulas that parse and name registered
units only, and whose dependency graph has no cycle, `ReplaceDerivedUnits` returns a
result for every expression `Validate` accepts, at every bound on the depth of recursion
above the number of units, and every term of the result names a base unit. -/
theorem ReplaceDerivedUnits_reaches_base_units (units : Registry) (e : Expression)
    (hres : Resolvable units) (hac : Acyclic units) (hv : e.Validate units = none) :
    ∃ result, (∀ fuel, units.length + 1 ≤ fuel →
        e.ReplaceDerivedUnits units fuel = some (.ok result))
      ∧ ∀ t ∈ result.terms, NamesBaseUnit units t := by
  obtain ⟨result, hr, hb⟩ := ReplaceDerivedUnits_total units hres hac (units.length + 1) []
    List.nodup_nil (fun p hp => by cases hp) (by simp) e hv
    (fun t _ p hp => by cases hp)
  exact ⟨result, ReplaceDerivedUnits_mono_le units e _ _ hr, hb⟩

theorem resolvable_of_check (units : Registry)
    (h : units.all (formulaResolves units) = true) : Resolvable units := by
  intro name unit hu hbase
  have hm := (GetUnit_ok_mem units name unit hu).1
  have hc := List.all_eq_true.1 h unit hm
  unfold formulaResolves at hc
  rw [hbase, Bool.false_or] at hc
  cases hp : ParseExpression unit.formula with
  | error err => rw [hp] at hc; cases hc
  | ok expr =>
    rw [hp] at hc
    refine ⟨expr, rfl, ?_⟩
    simpa [Option.isNone_iff_eq_none] using hc

theorem acyclic_of_check (units : Registry) (rank : String → Nat)
    (h : units.all (rankFalls rank) = true) : Acyclic units := by
  apply acyclic_of_rank units rank
  rintro a b ⟨unit, expr, hu, hbase, hp, t, ht, rfl⟩
  obtain ⟨hm, hn⟩ := GetUnit_ok_mem units a unit hu
  have hc := List.all_eq_true.1 h unit hm
  unfold rankFalls at hc
  rw [hbase, Bool.false_or, hp] at hc
  have := List.all_eq_true.1 hc t ht
  rw [← hn]
  simpa using this

/-- C6 on the registry with km, h and kmh and the expression "36*kmh": the registry is
resolvable and acyclic, `Validate` accepts the expression, and its expansion returns
terms of base units. -/
theorem ReplaceDerivedUnits_reaches_base_units_witness :
    Resolvable kmhRegistry ∧ Acyclic kmhRegistry
    ∧ Expression.Validate kmhRegistry ⟨F64.ofInt 36, [⟨"kmh", 1⟩]⟩ = none
    ∧ ∃ result, (∀ fuel, kmhRegistry.length + 1 ≤ fuel →
          Expression.ReplaceDerivedUnits kmhRegistry fuel ⟨F64.ofInt 36, [⟨"kmh", 1⟩]⟩
            = some (.ok result))
        ∧ ∀ t ∈ result.terms, NamesBaseUnit kmhRegistry t :=
  ⟨resolvable_of_check kmhRegistry (by decide!),
    acyclic_of_check kmhRegistry kmhRank (by decide!),
    by decide!,
    ReplaceDerivedUnits_reaches_base_units kmhRegistry ⟨F64.ofInt 36, [⟨"kmh", 1⟩]⟩
      (resolvable_of_check kmhRegistry (by decide!))
      (acyclic_of_check kmhRegistry kmhRank (by decide!)) (by decide!)⟩

theorem digitChar_isDigit (k : Nat) (h : k < 10) :
    isDigit (Nat.digitChar k) = true ∧ digitVal (Nat.digitChar k) = k := by
  interval_cases k <;> decide

theorem toDigitsCore_spec (fuel : Nat) :
    ∀ (n : Nat) (ds : List Char), n < fuel →
      ∃ l, Nat.toDigitsCore 10 fuel n ds = l ++ ds ∧ l ≠ []
        ∧ (∀ c ∈ l, isDigit c = true)
        ∧ l.foldl (fun acc c => acc * 10 + digitVal c) 0 = n := by
  induction fuel with
  | zero => intro n ds h; omega
  | succ fuel ih =>
    intro n ds h
    have hd := digitChar_isDigit (n % 10) (Nat.mod_lt _ (by decide))
    rw [Nat.toDigitsCore]
    by_cases h0 : n / 10 = 0
    · simp only [h0, if_true]
      refine ⟨[Nat.digitChar (n % 10)], rfl, by simp, ?_, ?_⟩
      · intro c hc
        rw [List.mem_singleton] at hc
        rw [hc]; exact hd.1
      · simp only [List.foldl_cons, List.foldl_nil, hd.2]
        omega
    · simp only [h0, if_false]
      obtain ⟨l, hl, _, hdig, hval⟩ := ih (n / 10) (Nat.digitChar (n % 10) :: ds) (by omega)
      refine ⟨l ++ [Nat.digitChar (n % 10)], by rw [hl]; simp, by simp, ?_, ?_⟩
      · intro c hc
        rcases List.mem_append.1 hc with h1 | h1
        · exact hdig c h1
        · rw [List.mem_singleton] at h1
          rw [h1]; exact hd.1
      · rw [List.foldl_append, hval]
        simp only [List.foldl_cons, List.foldl_nil, hd.2]
        omega

theorem toDigits_spec (n : Nat) :
    Nat.toDigits 10 n ≠ [] ∧ (∀ c ∈ Nat.toDigits 10 n, isDigit c = true)
      ∧ parseDigits (Nat.toDigits 10 n) = some n := by
  obtain ⟨l, hl, hne, hdig, hval⟩ := toDigitsCore_spec (n + 1) n [] (Nat.lt_succ_self n)
  rw [List.append_nil] at hl
  unfold Nat.toDigits
  rw [hl]
  refine ⟨hne, hdig, ?_⟩
  unfold parseDigits
  have hall : l.all isDigit = true := List.all_eq_true.2 hdig
  rw [if_pos ⟨hne, hall⟩, hval]

theorem isDigit_not_special (c : Char) (h : isDigit c = true) :
    isSpace c = false ∧ c ≠ '*' ∧ c ≠ '^' ∧ c ≠ '-' ∧ c ≠ '+' := by
  unfold isDigit at h
  simp only [Bool.and_eq_true, decide_eq_true_eq] at h
  refine ⟨?_, ?_, ?_, ?_, ?_⟩
  · unfold isSpace
    simp only [Bool.or_eq_false_iff, decide_eq_false_iff_not, Bool.and_eq_false_imp,
      decide_eq_true_eq]
    omega
  all_goals
    intro hc
    rw [hc] at h
    revert h
    decide

theorem TrimSpace_of_no_space (l : List Char) (h : ∀ c ∈ l, isSpace c = false) :
    TrimSpace l = l := by
  unfold TrimSpace
  have h1 : l.dropWhile isSpace = l := by
    cases l with
    | nil => rfl
    | cons a t =>
      rw [List.dropWhile_cons, h a (List.mem_cons_self _ _)]
      simp
  rw [h1, List.rdropWhile_eq_self_iff]
  intro hne
  have := h _ (List.getLast_mem hne)
  simp [this]

theorem formatInt_spec (k : Int) (h : minInt ≤ k ∧ k ≤ maxInt) :
    Atoi (TrimSpace (formatInt k)) = some k ∧ '^' ∉ formatInt k ∧ '*' ∉ formatInt k := by
  obtain ⟨hne, hdig, hval⟩ := toDigits_spec k.natAbs
  have hmem : ∀ c ∈ formatInt k, c = '-' ∨ isDigit c = true := by
    intro c hc
    unfold formatInt at hc
    split at hc
    · rcases List.mem_cons.1 hc with h1 | h1
      · exact Or.inl h1
      · exact Or.inr (hdig c h1)
    · exact Or.inr (hdig c hc)
  have htrim : TrimSpace (formatInt k) = formatInt k := by
    apply TrimSpace_of_no_space
    intro c hc
    rcases hmem c hc with h1 | h1
    · rw [h1]; decide
    · exact (isDigit_not_special c h1).1
  refine ⟨?_, ?_, ?_⟩
  · rw [htrim]
    unfold formatInt
    by_cases hk : k < 0
    · rw [if_pos hk]
      unfold Atoi
      simp only [if_true, hval]
      have : -((k.natAbs : Nat) : Int) = k := by omega
      rw [this, if_pos h]
    · rw [if_neg hk]
      unfold Atoi
      cases hd : Nat.toDigits 10 k.natAbs with
      | nil => exact absurd hd hne
      | cons a t =>
        have ha := hdig a (by rw [hd]; exact List.mem_cons_self _ _)
        have hs := isDigit_not_special a ha
        simp only [if_neg hs.2.2.2.1, if_neg hs.2.2.2.2]
        rw [← hd, hval]
        have : ((k.natAbs : Nat) : Int) = k := by omega
        simp only [Bool.false_eq_true, if_false, this, if_pos h]
  · intro hc
    rcases hmem _ hc with h1 | h1
    · revert h1; decide
    · exact (isDigit_not_special _ h1).2.2.1 rfl
  · intro hc
    rcases hmem _ hc with h1 | h1
    · revert h1; decide
    · exact (isDigit_not_special _ h1).2.1 rfl

theorem beforeCaret_append (name rest : List Char) (h : '^' ∉ name) :
    beforeCaret (name ++ '^' :: rest) = name ∧ afterCaret (name ++ '^' :: rest) = rest := by
  unfold beforeCaret afterCaret
  induction name with
  | nil => simp [List.takeWhile, List.dropWhile]
  | cons c cs ih =>
    simp only [List.mem_cons, not_or] at h
    have hb : (c != '^') = true := by
      simp only [bne_iff_ne, ne_eq]
      exact fun hc => h.1 hc.symm
    have := ih h.2
    rw [List.cons_append, List.takeWhile_cons, List.dropWhile_cons]
    simp only [hb, if_true]
    exact ⟨congrArg (List.cons c) this.1, this.2⟩

theorem term_format_spec (t : term) (hn : plainName t.unit) (hz : t.exponent ≠ 0)
    (hr : minInt ≤ t.exponent ∧ t.exponent ≤ maxInt) :
    parseTerm t.format = .ok t ∧ t.format ≠ [] ∧ '*' ∉ t.format := by
  obtain ⟨hne, hstar, hcaret, htrim⟩ := hn
  have hlen : (TrimSpace t.unit.data).length ≠ 0 := by
    rw [htrim]
    exact fun h0 => hne (List.length_eq_zero.1 h0)
  unfold term.format
  rw [if_neg hz]
  by_cases h1 : t.exponent = 1
  · rw [if_pos h1]
    refine ⟨?_, hne, hstar⟩
    rw [parseTerm_no_caret _ hcaret, if_neg hlen, htrim, ← h1]
  · rw [if_neg h1]
    obtain ⟨hatoi, hc2, hs2⟩ := formatInt_spec t.exponent hr
    have hmem : '^' ∈ t.unit.data ++ '^' :: formatInt t.exponent := by simp
    obtain ⟨hb, ha⟩ := beforeCaret_append t.unit.data (formatInt t.exponent) hcaret
    refine ⟨?_, by simp, ?_⟩
    · rw [parseTerm_one_caret _ hmem (by rw [ha]; exact hc2), hb, ha, if_neg hlen, hatoi, htrim]
    · intro hc
      rcases List.mem_append.1 hc with h2 | h2
      · exact hstar h2
      · rcases List.mem_cons.1 h2 with h3 | h3
        · revert h3; decide
        · exact hs2 h3

theorem padZeros_mem (w : Nat) (ds : List Char) (c : Char) (h : c ∈ F64.padZeros w ds) :
    c = '0' ∨ c ∈ ds := by
  unfold F64.padZeros at h
  rcases List.mem_append.1 h with h1 | h1
  · exact Or.inl (List.eq_of_mem_replicate h1)
  · exact Or.inr h1

theorem formatFloat_spec (v : F64) : F64.formatFloat v ≠ [] ∧ '*' ∉ F64.formatFloat v := by
  cases v with
  | nan => exact ⟨by decide, by decide⟩
  | inf s => cases s <;> exact ⟨by decide, by decide⟩
  | fin s m e =>
    unfold F64.formatFloat
    simp only
    refine ⟨by simp, ?_⟩
    intro hc
    have hdigit : ∀ n, '*' ∉ Nat.toDigits 10 n := by
      intro n hn
      exact (isDigit_not_special _ ((toDigits_spec n).2.1 _ hn)).2.1 rfl
    rcases List.mem_append.1 hc with h1 | h1
    · rcases List.mem_append.1 h1 with h2 | h2
      · rcases List.mem_append.1 h2 with h3 | h3
        · cases s
          · simp at h3
          · simp at h3
        · exact hdigit _ h3
      · simp at h2
    · rcases padZeros_mem _ _ _ h1 with h2 | h2
      · revert h2; decide
      · exact hdigit _ h2

theorem splitOn_joined (toks : List (List Char)) :
    ∀ tok0 : List Char, '*' ∉ tok0 → (∀ tok ∈ toks, '*' ∉ tok) →
      (tok0 ++ (toks.map (fun tok => '*' :: tok)).flatten).splitOn '*' = tok0 :: toks := by
  induction toks with
  | nil =>
    intro tok0 h0 _
    simpa using splitOn_of_not_mem '*' tok0 h0
  | cons t rest ih =>
    intro tok0 h0 hall
    have hstep : (tok0 ++ '*' :: (t ++ (rest.map (fun tok => '*' :: tok)).flatten)).splitOn '*'
        = tok0 :: (t ++ (rest.map (fun tok => '*' :: tok)).flatten).splitOn '*' := by
      unfold List.splitOn
      apply List.splitOnP_first
      · intro x hx hp
        simp only [beq_iff_eq] at hp
        subst hp
        exact h0 hx
      · simp
    simp only [List.map_cons, List.flatten_cons, List.cons_append]
    rw [hstep, ih t (hall t (List.mem_cons_self _ _))
      (fun tok ht => hall tok (List.mem_cons_of_mem _ ht))]

theorem writeTerms_of_nonempty (ts : List term) :
    ∀ builder : List Char, builder ≠ [] →
      writeTerms ts builder = builder ++ (ts.map (fun t => '*' :: t.format)).flatten := by
  induction ts with
  | nil => intro b _; simp [writeTerms]
  | cons t rest ih =>
    intro b hb
    have hpos : 0 < b.length := List.length_pos.2 hb
    rw [writeTerms, if_pos hpos, ih _ (by simp)]
    simp

theorem parseTerm_format_all (ts : List term)
    (h : ∀ t ∈ ts, parseTerm t.format = .ok t) :
    List.Forall₂ (fun tok t => parseTerm tok = .ok t) (ts.map term.format) ts := by
  induction ts with
  | nil => exact List.Forall₂.nil
  | cons x xs ih =>
    exact List.Forall₂.cons (h x (List.mem_cons_self _ _))
      (ih (fun t ht => h t (List.mem_cons_of_mem _ ht)))

theorem format_parse (c : F64) (ts : List term) (hne : ts ≠ [])
    (hgood : ∀ t ∈ ts, plainName t.unit ∧ t.exponent ≠ 0
      ∧ minInt ≤ t.exponent ∧ t.exponent ≤ maxInt)
    (hcoef : c = F64.one ∨ (F64.ne c F64.one = true
      ∧ F64.ParseFloat (TrimSpace (F64.formatFloat c)) = some c))
    (hfirst : c = F64.one → ∀ t, ts.head? = some t → F64.ParseFloat (TrimSpace t.format) = none) :
    ParseExpression (Expression.format ⟨c, ts⟩) = .ok ⟨c, ts⟩ := by
  have hspec : ∀ t ∈ ts, parseTerm t.format = .ok t ∧ t.format ≠ [] ∧ '*' ∉ t.format :=
    fun t ht => term_format_spec t (hgood t ht).1 (hgood t ht).2.1 (hgood t ht).2.2
  have hstar : ∀ (l : List term), (∀ t ∈ l, t ∈ ts) → ∀ tok ∈ l.map term.format, '*' ∉ tok := by
    intro l hl tok htok
    obtain ⟨t, ht, rfl⟩ := List.mem_map.1 htok
    exact (hspec t (hl t ht)).2.2
  have hjoin : ∀ l : List term, l.map (fun t => '*' :: t.format)
      = (l.map term.format).map (fun tok => '*' :: tok) := by
    intro l; rw [List.map_map]; rfl
  have hlen : ¬ ts.length = 0 := fun h0 => hne (List.length_eq_zero.1 h0)
  unfold Expression.format ParseExpression
  simp only [if_neg hlen]
  rcases hcoef with hc | ⟨hc, hpf⟩
  · subst hc
    have hone : F64.ne F64.one F64.one = false := by decide!
    cases ts with
    | nil => exact absurd rfl hne
    | cons t rest =>
      obtain ⟨hp, hfne, hfs⟩ := hspec t (List.mem_cons_self _ _)
      have hw : writeTerms (t :: rest) [] = t.format
          ++ ((rest.map term.format).map (fun tok => '*' :: tok)).flatten := by
        rw [writeTerms]
        simp only [List.length_nil, Nat.lt_irrefl, if_false, List.nil_append]
        rw [writeTerms_of_nonempty rest _ hfne, hjoin]
      simp only [hone, Bool.false_eq_true, if_false]
      rw [hw, splitOn_joined _ _ hfs
        (hstar rest (fun x hx => List.mem_cons_of_mem _ hx)), parseLoop]
      simp only [if_true, hfirst rfl t rfl, hp]
      rw [parseLoop_ok_iff _ 1 one_ne_zero]
      exact ⟨rfl, rest, parseTerm_format_all rest
        (fun x hx => (hspec x (List.mem_cons_of_mem _ hx)).1), rfl⟩
  · obtain ⟨hfne, hfs⟩ := formatFloat_spec c
    simp only [hc, if_true]
    rw [writeTerms_of_nonempty ts _ hfne, hjoin, splitOn_joined _ _ hfs
      (hstar ts (fun x hx => hx)), parseLoop]
    simp only [if_true, hpf]
    rw [parseLoop_ok_iff _ 1 one_ne_zero]
    exact ⟨rfl, ts, parseTerm_format_all ts (fun x hx => (hspec x hx).1), by simp⟩

/-- C1, as the code has it: let the normalized `e` have a term, and let `ts` be its terms
in the order the map lists them, each with a plain unit name (not empty, without `*` or
`^`, without white space at either end) and an `int` exponent.  If the coefficient is 1
and the first term printed is no text `ParseFloat` accepts, or the coefficient is not 1
and its six-decimal text parses back to it, then the printed expression parses, and
normalizing the result gives the coefficient and, up to order, the terms of the
normalized `e`. -/
theorem format_parse_round_trip (e : Expression) (ts : List term)
    (hperm : ts.Perm e.Normalize.terms) (hne : ts ≠ [])
    (hplain : ∀ t ∈ ts, plainName t.unit ∧ minInt ≤ t.exponent ∧ t.exponent ≤ maxInt)
    (hcoef : e.coefficient = F64.one ∨ (F64.ne e.coefficient F64.one = true
      ∧ F64.ParseFloat (TrimSpace (F64.formatFloat e.coefficient)) = some e.coefficient))
    (hfirst : e.coefficient = F64.one →
      ∀ t, ts.head? = some t → F64.ParseFloat (TrimSpace t.format) = none) :
    ∃ parsed, ParseExpression (Expression.format ⟨e.Normalize.coefficient, ts⟩) = .ok parsed
      ∧ parsed.Normalize.coefficient = e.Normalize.coefficient
      ∧ parsed.Normalize.terms.Perm e.Normalize.terms := by
  have hn : (ts.map (fun t => t.unit)).Nodup :=
    ((hperm.map _).nodup_iff).2 (Normalize_units_nodup e)
  have hz : ∀ t ∈ ts, t.exponent ≠ 0 :=
    fun t ht => Normalize_exponent_ne_zero e t (hperm.mem_iff.1 ht)
  have hgood : ∀ t ∈ ts, plainName t.unit ∧ t.exponent ≠ 0
      ∧ minInt ≤ t.exponent ∧ t.exponent ≤ maxInt :=
    fun t ht => ⟨(hplain t ht).1, hz t ht, (hplain t ht).2⟩
  have hc : e.Normalize.coefficient = e.coefficient := rfl
  refine ⟨⟨e.coefficient, ts⟩, ?_, ?_, ?_⟩
  · rw [hc]
    exact format_parse e.coefficient ts hne hgood hcoef hfirst
  · rw [Normalize_of_normal _ ts hn hz]
    rfl
  · rw [Normalize_of_normal _ ts hn hz]
    exact hperm

/-- C1 as stated fails on expressions without a zero exponent: the coefficient 5 without
a term prints as "1"; the coefficient 1/3600 prints as "0.000278"; the unit name "2"
parses as a coefficient; the unit names "a*b", "a^b", " m" and "" do not parse back. -/
theorem round_trip_fails :
    ¬ RoundTripClaim ⟨F64.ofInt 5, []⟩
    ∧ Expression.format (Expression.Normalize ⟨F64.ofInt 5, []⟩) = "1"
    ∧ ¬ RoundTripClaim ⟨F64.Pow (F64.ofInt 3600) (-1), [⟨"s", 1⟩]⟩
    ∧ Expression.format (Expression.Normalize ⟨F64.Pow (F64.ofInt 3600) (-1), [⟨"s", 1⟩]⟩)
        = "0.000278*s"
    ∧ ¬ RoundTripClaim ⟨F64.one, [⟨"2", 1⟩]⟩
    ∧ ¬ RoundTripClaim ⟨F64.one, [⟨"a*b", 1⟩]⟩
    ∧ ¬ RoundTripClaim ⟨F64.one, [⟨"a^b", 1⟩]⟩
    ∧ ¬ RoundTripClaim ⟨F64.one, [⟨" m", 1⟩]⟩
    ∧ ¬ RoundTripClaim ⟨F64.one, [⟨"", 1⟩]⟩ := by
  decide!

/-- C1 on 10*m^2*s^-1*m^-1, whose normal form has the terms m and s^-1, printed with
s^-1 first: "10.000000*s^-1*m" parses back to the same coefficient and terms. -/
theorem format_parse_round_trip_witness :
    [(⟨"s", -1⟩ : term), ⟨"m", 1⟩].Perm sampleExpression.Normalize.terms
    ∧ (∀ t ∈ [(⟨"s", -1⟩ : term), ⟨"m", 1⟩],
        plainName t.unit ∧ minInt ≤ t.exponent ∧ t.exponent ≤ maxInt)
    ∧ Expression.format ⟨sampleExpression.Normalize.coefficient, [⟨"s", -1⟩, ⟨"m", 1⟩]⟩
        = "10.000000*s^-1*m"
    ∧ ∃ parsed,
        ParseExpression
            (Expression.format ⟨sampleExpression.Normalize.coefficient, [⟨"s", -1⟩, ⟨"m", 1⟩]⟩)
          = .ok parsed
        ∧ parsed.Normalize.coefficient = sampleExpression.Normalize.coefficient
        ∧ parsed.Normalize.terms.Perm sampleExpression.Normalize.terms :=
  ⟨by decide!, by decide!, by decide!,
    format_parse_round_trip sampleExpression [⟨"s", -1⟩, ⟨"m", 1⟩] (by decide!) (by decide)
      (by decide!) (Or.inr (by decide!)) (fun h => absurd h (by decide!))⟩

theorem GetUnit_cases (units : Registry) (name : String) :
    (name ∈ GetUnitNames units ∧ ∃ unit, GetUnit units name = .ok unit)
    ∨ (name ∉ GetUnitNames units
        ∧ GetUnit units name = .error ("Unit '" ++ name ++ "' not found")) := by
  unfold GetUnit
  cases h : lookup units name with
  | some unit =>
    left
    have hu : GetUnit units name = .ok unit := (GetUnit_ok_iff units name unit).2 h
    exact ⟨GetUnit_ok_name_mem units name unit hu, unit, rfl⟩
  | none =>
    right
    refine ⟨?_, rfl⟩
    unfold lookup at h
    rw [List.find?_eq_none] at h
    intro hm
    obtain ⟨u, hu, hn⟩ := List.mem_map.1 hm
    exact h u hu (by simpa using hn)

theorem GetUnit_isOk_iff (units : Registry) (name : String) :
    (∃ unit, GetUnit units name = .ok unit) ↔ name ∈ GetUnitNames units := by
  rcases GetUnit_cases units name with ⟨hm, hu⟩ | ⟨hm, he⟩
  · exact ⟨fun _ => hm, fun _ => hu⟩
  · constructor
    · rintro ⟨unit, hu⟩
      rw [he] at hu
      cases hu
    · intro h
      exact absurd h hm

theorem validateLoop_some (units : Registry) (ts : List term) :
    ∀ err, validateLoop units ts = some err →
      ∃ pre t post, ts = pre ++ t :: post
        ∧ (∀ x ∈ pre, x.unit ∈ GetUnitNames units)
        ∧ t.unit ∉ GetUnitNames units
        ∧ GetUnit units t.unit = .error err
        ∧ err = "Unit '" ++ t.unit ++ "' not found" := by
  induction ts with
  | nil => intro err h; rw [validateLoop] at h; cases h
  | cons x xs ih =>
    intro err h
    rw [validateLoop] at h
    rcases GetUnit_cases units x.unit with ⟨hm, unit, hu⟩ | ⟨hm, he⟩
    · rw [hu] at h
      obtain ⟨pre, t, post, hts, hpre, ht, hg, hmsg⟩ := ih err h
      refine ⟨x :: pre, t, post, by rw [hts]; rfl, ?_, ht, hg, hmsg⟩
      intro y hy
      rcases List.mem_cons.1 hy with h1 | h1
      · rw [h1]; exact hm
      · exact hpre y h1
    · rw [he] at h
      simp only [Option.some.injEq] at h
      refine ⟨[], x, xs, rfl, (fun y hy => by cases hy), hm, ?_, h.symm⟩
      rw [he, h]

/-- C11: `Validate` returns no error exactly when the unit name of every term is
registered; an error it returns is the not-found error of `GetUnit` for the first term,
in term order, whose unit name is not registered, and its message holds that name. -/
theorem Validate_characterisation (units : Registry) (e : Expression) :
    (e.Validate units = none ↔ ∀ t ∈ e.terms, t.unit ∈ GetUnitNames units)
    ∧ (∀ err, e.Validate units = some err →
        ∃ pre t post, e.terms = pre ++ t :: post
          ∧ (∀ x ∈ pre, x.unit ∈ GetUnitNames units)
          ∧ t.unit ∉ GetUnitNames units
          ∧ GetUnit units t.unit = .error err
          ∧ err = "Unit '" ++ t.unit ++ "' not found") := by
  constructor
  · unfold Expression.Validate
    rw [validateLoop_none_iff]
    constructor
    · intro h t ht
      exact (GetUnit_isOk_iff units t.unit).1 (h t ht)
    · intro h t ht
      exact (GetUnit_isOk_iff units t.unit).2 (h t ht)
  · intro err h
    exact validateLoop_some units e.terms err h

theorem replaceLoop_base (units : Registry)
    (recurse : Expression → Option (Except String Expression)) (items : List term) :
    ∀ (terms : List term) (coefficient : F64),
      (∀ t ∈ items, NamesBaseUnit units t) →
      replaceLoop units recurse items terms coefficient
        = some (.ok ⟨coefficient, terms ++ items⟩) := by
  induction items with
  | nil => intro terms coefficient _; simp [replaceLoop]
  | cons item rest ih =>
    intro terms coefficient h
    obtain ⟨unit, hu, hb⟩ := h item (List.mem_cons_self _ _)
    rw [replaceLoop, hu]
    simp only [hb, if_true]
    rw [ih _ _ (fun t ht => h t (List.mem_cons_of_mem _ ht))]
    simp

/-- C12: after seeding, `GetUnit` finds each of the seven names with the name for
formula; and in any registry, `ReplaceDerivedUnits` returns an expression whose terms all
name base units as it is, the same coefficient and the same terms in the same order, at
every bound on the depth of recursion that allows the call itself. -/
theorem base_unit_invariant :
    (∀ n ∈ seededNames, GetUnit init n = .ok ⟨n, n⟩)
    ∧ (∀ n ∈ seededNames, Unit.IsBaseUnit ⟨n, n⟩ = true)
    ∧ ∀ (units : Registry) (e : Expression), (∀ t ∈ e.terms, NamesBaseUnit units t) →
        ∀ fuel, e.ReplaceDerivedUnits units (fuel + 1) = some (.ok e) := by
  refine ⟨by decide!, by decide!, ?_⟩
  intro units e h fuel
  rw [Expression.ReplaceDerivedUnits, replaceLoop_base units _ e.terms [] e.coefficient h]
  simp

/-- C12 on the seeded registry and the expression 3*m^2*s^-1: its terms name base units
and its expansion is the expression itself. -/
theorem base_unit_invariant_example :
    (∀ t ∈ [(⟨"m", 2⟩ : term), ⟨"s", -1⟩], NamesBaseUnit init t)
    ∧ Expression.ReplaceDerivedUnits init 1 ⟨F64.ofInt 3, [⟨"m", 2⟩, ⟨"s", -1⟩]⟩
        = some (.ok ⟨F64.ofInt 3, [⟨"m", 2⟩, ⟨"s", -1⟩]⟩) := by
  have h : ∀ t ∈ [(⟨"m", 2⟩ : term), ⟨"s", -1⟩], NamesBaseUnit init t := by
    intro t ht
    simp only [List.mem_cons, List.mem_singleton, List.not_mem_nil, or_false] at ht
    rcases ht with rfl | rfl
    · exact ⟨⟨"m", "m"⟩, by decide!, by decide!⟩
    · exact ⟨⟨"s", "s"⟩, by decide!, by decide!⟩
  exact ⟨h, base_unit_invariant.2.2 init ⟨F64.ofInt 3, [⟨"m", 2⟩, ⟨"s", -1⟩]⟩ h 0⟩

theorem lookup_append (units : Registry) (u : Unit) (name : String) :
    lookup (units ++ [u]) name =
      match lookup units name with
      | some x => some x
      | none => if u.name = name then some u else none := by
  unfold lookup
  rw [List.find?_append]
  cases h : List.find? (fun u => decide (u.name = name)) units with
  | some x => rfl
  | none =>
    by_cases hn : u.name = name
    · simp [List.find?, hn]
    · simp [List.find?, hn]

theorem lookup_none_iff (units : Registry) (name : String) :
    lookup units name = none ↔ name ∉ GetUnitNames units := by
  rcases GetUnit_cases units name with ⟨hm, unit, hu⟩ | ⟨hm, he⟩
  · rw [GetUnit_ok_iff] at hu
    simp [hu, hm]
  · constructor
    · intro _; exact hm
    · intro _
      cases h : lookup units name with
      | none => rfl
      | some x =>
        have := (GetUnit_ok_iff units name x).2 h
        rw [he] at this
        cases this

theorem GetUnit_append_of_ne (units : Registry) (u : Unit) (name : String)
    (h : name ≠ u.name) : GetUnit (units ++ [u]) name = GetUnit units name := by
  unfold GetUnit
  rw [lookup_append]
  cases lookup units name with
  | some x => rfl
  | none =>
    have hn : ¬ u.name = name := fun hn => h hn.symm
    simp only [if_neg hn]

theorem GetUnit_append_new (units : Registry) (u : Unit)
    (h : u.name ∉ GetUnitNames units) : GetUnit (units ++ [u]) u.name = .ok u := by
  unfold GetUnit
  rw [lookup_append, (lookup_none_iff units u.name).2 h]
  simp

theorem AddUnit_eq (units : Registry) (name formula : String) :
    AddUnit units name formula =
      if name ∈ GetUnitNames units then .error ("Unit '" ++ name ++ "' already defined")
      else .ok (⟨name, formula⟩, units ++ [⟨name, formula⟩]) := by
  unfold AddUnit
  by_cases h : name ∈ GetUnitNames units
  · rw [if_pos h]
    cases hl : lookup units name with
    | none => exact absurd h ((lookup_none_iff units name).1 hl)
    | some x => rfl
  · rw [if_neg h, (lookup_none_iff units name).2 h]

/-- C15: `AddUnit` fails exactly when the name is registered, and then leaves the map as
it was; where it succeeds, the map is the old one with the unit of that name and formula
added, `GetUnit` finds that unit under the name, and finds under every other name what it
found before.  The formula is not looked at: a formula that does not parse, or names no
registered unit, is added all the same. -/
theorem AddUnit_characterisation (units : Registry) (name formula : String) :
    ((∃ err, AddUnit units name formula = .error err) ↔ name ∈ GetUnitNames units)
    ∧ ((∃ err, AddUnit units name formula = .error err) →
        afterAddUnit units name formula = units)
    ∧ (∀ unit added, AddUnit units name formula = .ok (unit, added) →
        unit = ⟨name, formula⟩
        ∧ added = units ++ [⟨name, formula⟩]
        ∧ afterAddUnit units name formula = added
        ∧ GetUnit added name = .ok ⟨name, formula⟩
        ∧ ∀ other, other ≠ name → GetUnit added other = GetUnit units other)
    ∧ (∃ err, ParseExpression "m^2^3" = .error err)
    ∧ AddUnit init "x" "m^2^3" = .ok (⟨"x", "m^2^3"⟩, init ++ [⟨"x", "m^2^3"⟩])
    ∧ "nosuch" ∉ GetUnitNames init
    ∧ AddUnit init "y" "nosuch" = .ok (⟨"y", "nosuch"⟩, init ++ [⟨"y", "nosuch"⟩]) := by
  refine ⟨?_, ?_, ?_, ⟨"Invalid term 'm^2^3'", by decide!⟩, by decide!, by decide!, by decide!⟩
  · rw [AddUnit_eq]
    by_cases h : name ∈ GetUnitNames units
    · simp [h]
    · simp [h]
  · rintro ⟨err, he⟩
    unfold afterAddUnit
    rw [he]
  · intro unit added h
    have ha : afterAddUnit units name formula = added := by
      unfold afterAddUnit
      rw [h]
    rw [AddUnit_eq] at h
    by_cases hm : name ∈ GetUnitNames units
    · rw [if_pos hm] at h
      cases h
    · rw [if_neg hm] at h
      simp only [Except.ok.injEq, Prod.mk.injEq] at h
      obtain ⟨h1, h2⟩ := h
      subst h1 h2
      exact ⟨rfl, rfl, ha, GetUnit_append_new units ⟨name, formula⟩ hm,
        fun other ho => GetUnit_append_of_ne units ⟨name, formula⟩ other ho⟩

theorem Validate_none_iff (units : Registry) (e : Expression) :
    e.Validate units = none ↔ ∀ t ∈ e.terms, t.unit ∈ GetUnitNames units := by
  unfold Expression.Validate
  rw [validateLoop_none_iff]
  constructor
  · intro h t ht
    exact (GetUnit_isOk_iff units t.unit).1 (h t ht)
  · intro h t ht
    exact (GetUnit_isOk_iff units t.unit).2 (h t ht)

theorem addUnit_ok_iff (units : Registry) (name formula : String) (stored : Registry) :
    addUnit units name formula = .ok stored ↔
      name ∉ GetUnitNames units
      ∧ (∃ expr, ParseExpression formula = .ok expr
          ∧ ∀ t ∈ expr.terms, t.unit ∈ GetUnitNames units)
      ∧ stored = units ++ [⟨name, formula⟩] := by
  unfold addUnit
  rcases GetUnit_cases units name with ⟨hm, unit, hu⟩ | ⟨hm, he⟩
  · rw [hu]
    simp [hm]
  · rw [he]
    simp only
    cases hp : ParseExpression formula with
    | error err => simp
    | ok expr =>
      simp only
      cases hv : expr.Validate units with
      | some err =>
        have : ¬ ∀ t ∈ expr.terms, t.unit ∈ GetUnitNames units := by
          intro h
          rw [(Validate_none_iff units expr).2 h] at hv
          cases hv
        simp [this]
      | none =>
        have hall := (Validate_none_iff units expr).1 hv
        simp only
        rw [AddUnit_eq, if_neg hm]
        simp only [Except.ok.injEq]
        constructor
        · intro h
          exact ⟨hm, ⟨expr, rfl, hall⟩, h.symm⟩
        · rintro ⟨_, _, h⟩
          exact h.symm

/-- C14: the add command succeeds exactly when the name is not registered, the expression
parses, and every term of the parsed expression names a unit registered before the add;
it then stores the old registry with the entry of that name and formula added, and where
it fails it leaves the registry as it was. -/
theorem addUnit_characterisation (units : Registry) (name formula : String) :
    ((∃ stored, addUnit units name formula = .ok stored) ↔
      name ∉ GetUnitNames units
      ∧ ∃ expr, ParseExpression formula = .ok expr
          ∧ ∀ t ∈ expr.terms, t.unit ∈ GetUnitNames units)
    ∧ (∀ stored, addUnit units name formula = .ok stored →
        stored = units ++ [⟨name, formula⟩]
        ∧ leftBy units (addUnit units name formula) = units ++ [⟨name, formula⟩])
    ∧ (∀ err, addUnit units name formula = .error err →
        leftBy units (addUnit units name formula) = units) := by
  refine ⟨?_, ?_, ?_⟩
  · constructor
    · rintro ⟨stored, h⟩
      have := (addUnit_ok_iff units name formula stored).1 h
      exact ⟨this.1, this.2.1⟩
    · rintro ⟨h1, h2⟩
      exact ⟨_, (addUnit_ok_iff units name formula _).2 ⟨h1, h2, rfl⟩⟩
  · intro stored h
    have hs := ((addUnit_ok_iff units name formula stored).1 h).2.2
    refine ⟨hs, ?_⟩
    rw [h, ← hs]
    rfl
  · intro err h
    rw [h]
    rfl

theorem RefersToUnit_iff (e : Expression) (name : String) :
    e.RefersToUnit name = true ↔ ∃ t ∈ e.terms, t.unit = name := by
  unfold Expression.RefersToUnit
  simp [List.any_eq_true]

theorem removeScan_none_iff (units : Registry) (name : String) (names : List String) :
    removeScan units name names = none ↔
      ∀ n ∈ names, n ≠ name →
        ∃ unit expr, GetUnit units n = .ok unit ∧ ParseExpression unit.formula = .ok expr
          ∧ ∀ t ∈ expr.terms, t.unit ≠ name := by
  induction names with
  | nil => simp [removeScan]
  | cons n rest ih =>
    rw [removeScan]
    by_cases hn : n = name
    · rw [if_pos hn, ih]
      simp [hn]
    · rw [if_neg hn]
      simp only [List.mem_cons, forall_eq_or_imp]
      cases hu : GetUnit units n with
      | error err => simp [hn]
      | ok unit =>
        simp only
        cases hp : ParseExpression unit.formula with
        | error err => simp [hn, hp]
        | ok expr =>
          simp only
          by_cases hr : expr.RefersToUnit name = true
          · rw [if_pos hr]
            obtain ⟨t, ht, htn⟩ := (RefersToUnit_iff expr name).1 hr
            simp only [reduceCtorEq, ne_eq, hn, not_false_eq_true, Except.ok.injEq,
              exists_and_left, exists_eq_left', hp, forall_const, false_iff, not_and]
            intro h
            exact absurd htn (h t ht)
          · rw [if_neg hr, ih]
            have hnot : ∀ t ∈ expr.terms, t.unit ≠ name := by
              intro t ht htn
              exact hr ((RefersToUnit_iff expr name).2 ⟨t, ht, htn⟩)
            simp only [ne_eq, hn, not_false_eq_true, Except.ok.injEq, exists_and_left,
              exists_eq_left', hp, forall_const, true_and, iff_and_self]
            intro _
            exact hnot

theorem lookup_filter_of_ne (units : Registry) (name other : String) (h : other ≠ name) :
    lookup (units.filter (fun u => !decide (u.name = name))) other = lookup units other := by
  unfold lookup
  induction units with
  | nil => rfl
  | cons x xs ih =>
    by_cases hx : x.name = name
    · have hxo : decide (x.name = other) = false :=
        decide_eq_false (fun ho => h (ho.symm.trans hx))
      have hxf : (!decide (x.name = name)) = false := by simp [hx]
      rw [List.filter_cons, hxf, List.find?_cons, hxo]
      exact ih
    · have hxf : (!decide (x.name = name)) = true := by simp [hx]
      rw [List.filter_cons, hxf]
      simp only [if_true]
      rw [List.find?_cons, List.find?_cons, ih]

theorem GetUnit_filter_of_ne (units : Registry) (name other : String) (h : other ≠ name) :
    GetUnit (units.filter (fun u => !decide (u.name = name))) other = GetUnit units other := by
  unfold GetUnit
  rw [lookup_filter_of_ne units name other h]

theorem not_mem_names_filter (units : Registry) (name : String) :
    name ∉ GetUnitNames (units.filter (fun u => !decide (u.name = name))) := by
  unfold GetUnitNames
  intro h
  obtain ⟨u, hu, hn⟩ := List.mem_map.1 h
  have := (List.mem_filter.1 hu).2
  simp [hn] at this

theorem RemoveUnit_eq (units : Registry) (name : String) :
    RemoveUnit units name =
      if name ∈ GetUnitNames units then
        .ok (units.filter (fun u => !decide (u.name = name)))
      else .error ("Unit '" ++ name ++ "' not found") := by
  unfold RemoveUnit
  by_cases h : name ∈ GetUnitNames units
  · rw [if_pos h]
    cases hl : lookup units name with
    | none => exact absurd h ((lookup_none_iff units name).1 hl)
    | some x => rfl
  · rw [if_neg h, (lookup_none_iff units name).2 h]

theorem removeUnit_ok_iff (units : Registry) (name : String) (stored : Registry) :
    removeUnit units name = .ok stored ↔
      (∃ unit, GetUnit units name = .ok unit ∧ unit.IsBaseUnit = false)
      ∧ (∀ n ∈ GetUnitNames units, n ≠ name →
          ∃ unit expr, GetUnit units n = .ok unit ∧ ParseExpression unit.formula = .ok expr
            ∧ ∀ t ∈ expr.terms, t.unit ≠ name)
      ∧ stored = units.filter (fun u => !decide (u.name = name)) := by
  unfold removeUnit
  rcases GetUnit_cases units name with ⟨hm, unit, hu⟩ | ⟨hm, he⟩
  · rw [hu]
    simp only [Except.ok.injEq, exists_eq_left']
    cases hb : unit.IsBaseUnit with
    | true => simp
    | false =>
      simp only [Bool.false_eq_true, if_false, true_and]
      cases hs : removeScan units name (GetUnitNames units) with
      | some err =>
        have : ¬ ∀ n ∈ GetUnitNames units, n ≠ name →
            ∃ unit expr, GetUnit units n = .ok unit ∧ ParseExpression unit.formula = .ok expr
              ∧ ∀ t ∈ expr.terms, t.unit ≠ name := by
          intro h
          rw [(removeScan_none_iff units name _).2 h] at hs
          cases hs
        simp only [reduceCtorEq, false_iff, not_and]
        intro h
        exact absurd h this
      | none =>
        have hall := (removeScan_none_iff units name _).1 hs
        simp only
        rw [RemoveUnit_eq, if_pos hm]
        simp only [Except.ok.injEq]
        constructor
        · intro h; exact ⟨hall, h.symm⟩
        · rintro ⟨_, h⟩; exact h.symm
  · rw [he]
    simp
/-- C13: the remove command fails, leaving the registry as it was, if the name is not
registered, if it names a base unit, or if the parsed formula of another registered unit
has a term of exactly that name.  If it names a derived unit, and the formula of every
other registered unit parses and has no term of that name, the command succeeds: the name
is registered no longer, and every other name has the entry it had. -/
theorem removeUnit_characterisation (units : Registry) (name : String) :
    (name ∉ GetUnitNames units →
      removeUnit units name = .error ("Unit '" ++ name ++ "' not found"))
    ∧ (∀ unit, GetUnit units name = .ok unit → unit.IsBaseUnit = true →
        removeUnit units name = .error "Cannot delete a base unit")
    ∧ (∀ other unit expr, other ≠ name → GetUnit units other = .ok unit →
        ParseExpression unit.formula = .ok expr → (∃ t ∈ expr.terms, t.unit = name) →
        ∃ err, removeUnit units name = .error err)
    ∧ (∀ err, removeUnit units name = .error err →
        leftBy units (removeUnit units name) = units)
    ∧ (∀ unit, GetUnit units name = .ok unit → unit.IsBaseUnit = false →
        (∀ other u, other ≠ name → GetUnit units other = .ok u →
          ∃ expr, ParseExpression u.formula = .ok expr ∧ ∀ t ∈ expr.terms, t.unit ≠ name) →
        ∃ stored, removeUnit units name = .ok stored
          ∧ leftBy units (removeUnit units name) = stored
          ∧ name ∉ GetUnitNames stored
          ∧ ∀ other, other ≠ name → GetUnit stored other = GetUnit units other)
    ∧ removeUnit kmhRegistry "km" = .error "Unit 'km' still in use (at least by 'kmh')"
    ∧ removeUnit kmhRegistry "kmh" = .ok hourRegistry := by
  refine ⟨?_, ?_, ?_, ?_, ?_, by decide!, by decide!⟩
  · intro h
    rcases GetUnit_cases units name with ⟨hm, _⟩ | ⟨_, he⟩
    · exact absurd hm h
    · unfold removeUnit
      rw [he]
  · intro unit hu hb
    unfold removeUnit
    rw [hu]
    simp only [hb, if_true]
  · intro other unit expr hne hu hp ⟨t, ht, htn⟩
    cases h : removeUnit units name with
    | error err => exact ⟨err, rfl⟩
    | ok stored =>
      exfalso
      obtain ⟨_, hall, _⟩ := (removeUnit_ok_iff units name stored).1 h
      obtain ⟨unit2, expr2, hu2, hp2, hno⟩ :=
        hall other (GetUnit_ok_name_mem units other unit hu) hne
      rw [hu] at hu2
      cases hu2
      rw [hp] at hp2
      cases hp2
      exact hno t ht htn
  · intro err h
    rw [h]
    rfl
  · intro unit hu hb hall
    have hok : removeUnit units name
        = .ok (units.filter (fun u => !decide (u.name = name))) := by
      rw [removeUnit_ok_iff]
      refine ⟨⟨unit, hu, hb⟩, ?_, rfl⟩
      intro n hn hne
      obtain ⟨u, hun⟩ := (GetUnit_isOk_iff units n).2 hn
      obtain ⟨expr, hp, hno⟩ := hall n u hne hun
      exact ⟨u, expr, hun, hp, hno⟩
    refine ⟨_, hok, ?_, not_mem_names_filter units name,
      fun other ho => GetUnit_filter_of_ne units name other ho⟩
    rw [hok]
    rfl

theorem intercalate_star (l : List (List Char)) :
    ∀ a : List Char,
      ['*'].intercalate (a :: l) = a ++ (l.map (fun tok => '*' :: tok)).flatten := by
  induction l with
  | nil => intro a; simp [List.intercalate]
  | cons b l ih =>
    intro a
    have h := ih b
    simp only [List.intercalate, List.intersperse_cons₂, List.flatten_cons, List.map_cons,
      List.singleton_append] at h ⊢
    rw [h]
    rfl

theorem formatFloat_six_decimals (s : Bool) (m : Nat) (x : Int) :
    ∃ whole frac, F64.formatFloat (.fin s m x)
        = (if s then ['-'] else []) ++ whole ++ '.' :: frac
      ∧ whole ≠ [] ∧ (∀ c ∈ whole, isDigit c = true)
      ∧ frac.length = 6 ∧ (∀ c ∈ frac, isDigit c = true) := by
  unfold F64.formatFloat
  simp only
  generalize (if 2 ^ (-x).toNat < 2 * (m * 10 ^ 6 * 2 ^ x.toNat % 2 ^ (-x).toNat) ∨
      2 * (m * 10 ^ 6 * 2 ^ x.toNat % 2 ^ (-x).toNat) = 2 ^ (-x).toNat ∧
        m * 10 ^ 6 * 2 ^ x.toNat / 2 ^ (-x).toNat % 2 = 1 then
      m * 10 ^ 6 * 2 ^ x.toNat / 2 ^ (-x).toNat + 1
    else m * 10 ^ 6 * 2 ^ x.toNat / 2 ^ (-x).toNat) = q
  obtain ⟨hne, hdig, _⟩ := toDigits_spec (q / 10 ^ 6)
  obtain ⟨_, hdig2, _⟩ := toDigits_spec (q % 10 ^ 6)
  have hlen : (Nat.toDigits 10 (q % 10 ^ 6)).length ≤ 6 :=
    Nat.toDigitsCore_length 10 (by decide) _ _ 6 (Nat.mod_lt _ (by decide)) (by decide)
  refine ⟨Nat.toDigits 10 (q / 10 ^ 6), F64.padZeros 6 (Nat.toDigits 10 (q % 10 ^ 6)),
    by simp, hne, hdig, ?_, ?_⟩
  · unfold F64.padZeros
    rw [List.length_append, List.length_replicate]
    omega
  · intro c hc
    rcases padZeros_mem _ _ _ hc with h1 | h1
    · rw [h1]; decide
    · exact hdig2 c h1

theorem parseTerm_unit_ne_nil (str : List Char) (t : term) (h : parseTerm str = .ok t) :
    t.unit.data ≠ [] := by
  by_cases hc : '^' ∈ str
  · by_cases h2 : '^' ∈ afterCaret str
    · rw [parseTerm_many_carets str hc h2] at h
      cases h
    · rw [parseTerm_one_caret str hc h2] at h
      split at h
      · cases h
      · rename_i hl
        split at h
        · cases h
        · cases h
          exact fun h0 => hl (List.length_eq_zero.2 h0)
  · rw [parseTerm_no_caret str hc] at h
    split at h
    · cases h
    · rename_i hl
      cases h
      exact fun h0 => hl (List.length_eq_zero.2 h0)

theorem term_format_ne_nil (t : term) (h : t.unit.data ≠ []) : t.format ≠ [] := by
  unfold term.format
  split
  · simp
  · split
    · exact h
    · simp

theorem parsed_format_ne_nil (str : String) (e : Expression)
    (h : ParseExpression str = .ok e) : ∀ t ∈ e.terms, t.format ≠ [] := by
  have hall : ∀ (toks : List (List Char)) (ts : List term),
      List.Forall₂ (fun tok t => parseTerm tok = .ok t) toks ts →
      ∀ t ∈ ts, t.format ≠ [] := by
    intro toks ts hf
    induction hf with
    | nil => intro t ht; cases ht
    | cons h1 _ ih =>
      intro t ht
      rcases List.mem_cons.1 ht with h2 | h2
      · rw [h2]; exact term_format_ne_nil _ (parseTerm_unit_ne_nil _ _ h1)
      · exact ih t h2
  unfold ParseExpression at h
  cases hs : str.data.splitOn '*' with
  | nil => exact absurd hs (List.splitOnP_ne_nil _ _)
  | cons t0 rest =>
    rw [hs, parseLoop] at h
    simp only [if_true] at h
    cases hf : F64.ParseFloat (TrimSpace t0) with
    | some c =>
      rw [hf] at h
      simp only at h
      obtain ⟨_, ts, hfa, hts⟩ := (parseLoop_ok_iff rest 1 one_ne_zero c [] e).1 h
      rw [hts]
      exact hall rest _ hfa
    | none =>
      rw [hf] at h
      simp only at h
      cases hp : parseTerm t0 with
      | error err => rw [hp] at h; cases h
      | ok t =>
        rw [hp] at h
        simp only at h
        obtain ⟨_, ts, hfa, hts⟩ := (parseLoop_ok_iff rest 1 one_ne_zero _ _ e).1 h
        rw [hts]
        exact hall (t0 :: rest) (t :: ts) (List.Forall₂.cons hp hfa)

theorem formatFloat_isSixDecimal (s : Bool) (m : Nat) (x : Int) :
    isSixDecimal (F64.formatFloat (.fin s m x)) = true := by
  obtain ⟨whole, frac, hf, hne, hw, hlen, hfr⟩ := formatFloat_six_decimals s m x
  have hdot : ∀ l : List Char, (∀ c ∈ l, isDigit c = true) → '.' ∉ l := by
    intro l hl hmem
    have := hl _ hmem
    revert this
    decide
  have hsplit : (whole ++ '.' :: frac).splitOn '.' = [whole, frac] := by
    have h1 : (whole ++ '.' :: frac).splitOn '.' = whole :: frac.splitOn '.' := by
      unfold List.splitOn
      apply List.splitOnP_first
      · intro c hc hp
        simp only [beq_iff_eq] at hp
        subst hp
        exact hdot whole hw hc
      · simp
    rw [h1, splitOn_of_not_mem '.' frac (hdot frac hfr)]
  have hbody : (match F64.formatFloat (.fin s m x) with
      | c :: rest => if c = '-' then rest else F64.formatFloat (.fin s m x)
      | [] => []) = whole ++ '.' :: frac := by
    rw [hf]
    cases s with
    | true => rfl
    | false =>
      cases whole with
      | nil => exact absurd rfl hne
      | cons a t =>
        have ha : a ≠ '-' := (isDigit_not_special a (hw a (List.mem_cons_self _ _))).2.2.2.1
        simp only [Bool.false_eq_true, if_false, List.nil_append, List.cons_append, if_neg ha]
  unfold isSixDecimal
  simp only [hbody, hsplit, Bool.and_eq_true, decide_eq_true_eq, List.all_eq_true]
  exact ⟨⟨⟨hne, hw⟩, hlen⟩, hfr⟩

theorem format_eq_specFormat (e : Expression)
    (h : F64.ne e.coefficient F64.one = true ∨
      ∀ t, e.terms.head? = some t → t.format ≠ []) :
    e.format = String.mk (specFormat e) := by
  unfold Expression.format specFormat
  cases hts : e.terms with
  | nil => rfl
  | cons t rest =>
    simp only [List.length_cons, Nat.succ_ne_zero, if_false, reduceCtorEq, List.map_cons]
    congr 1
    rw [intercalate_star]
    by_cases hc : F64.ne e.coefficient F64.one = true
    · rw [if_pos hc, if_pos hc,
        writeTerms_of_nonempty _ _ (formatFloat_spec e.coefficient).1]
      have hj : rest.map (fun t => '*' :: t.format)
          = (rest.map term.format).map (fun tok => '*' :: tok) := by
        rw [List.map_map]; rfl
      simp only [List.map_cons, List.flatten_cons, List.append_assoc,
        List.singleton_append, List.cons_append, List.nil_append, hj]
    · rw [if_neg hc, if_neg hc]
      have hf : t.format ≠ [] := by
        rcases h with h1 | h1
        · exact absurd h1 hc
        · exact h1 t (by rw [hts]; rfl)
      rw [writeTerms]
      simp only [List.length_nil, Nat.lt_irrefl, if_false, List.nil_append]
      rw [writeTerms_of_nonempty rest _ hf]
      have : rest.map (fun t => '*' :: t.format)
          = (rest.map term.format).map (fun tok => '*' :: tok) := by
        rw [List.map_map]; rfl
      rw [this]

/-- C16, as the code has it: `String` returns "1" for an expression without terms.  For
one with terms, whose coefficient is not 1 or whose first term has a rendering that is
not empty, it returns the renderings of the terms joined by `*`, after the text `%f`
prints for the coefficient and a `*` exactly when the coefficient is not 1.  That text is
in six-decimal fixed-point notation for a finite coefficient, and NaN, +Inf or -Inf for
the others.  A term renders as "1" for the exponent 0, as its unit name for the exponent
1, as name^exponent otherwise, the exponent in decimal.  Every expression that
`ParseExpression` returns is covered: no term of it has an empty rendering. -/
theorem format_definition (e : Expression)
    (h : F64.ne e.coefficient F64.one = true ∨
      ∀ t, e.terms.head? = some t → t.format ≠ []) :
    e.format = String.mk (specFormat e)
    ∧ (e.terms = [] → e.format = "1")
    ∧ (∀ t : term, t.format =
        if t.exponent = 0 then "1".data
        else if t.exponent = 1 then t.unit.data
        else t.unit.data ++ "^".data ++ formatInt t.exponent)
    ∧ (∀ k : Int, minInt ≤ k ∧ k ≤ maxInt → Atoi (formatInt k) = some k)
    ∧ (∀ (s : Bool) (m : Nat) (x : Int), ∃ whole frac,
        F64.formatFloat (.fin s m x) = (if s then ['-'] else []) ++ whole ++ '.' :: frac
        ∧ whole ≠ [] ∧ (∀ c ∈ whole, isDigit c = true)
        ∧ frac.length = 6 ∧ (∀ c ∈ frac, isDigit c = true))
    ∧ (∀ (s : Bool) (m : Nat) (x : Int), isSixDecimal (F64.formatFloat (.fin s m x)) = true)
    ∧ F64.formatFloat .nan = "NaN".data
    ∧ F64.formatFloat (.inf false) = "+Inf".data
    ∧ F64.formatFloat (.inf true) = "-Inf".data
    ∧ (∀ (str : String) (parsed : Expression), ParseExpression str = .ok parsed →
        (∀ t ∈ parsed.terms, t.format ≠ [])
        ∧ parsed.format = String.mk (specFormat parsed)) := by
  refine ⟨format_eq_specFormat e h, ?_, ?_, ?_, formatFloat_six_decimals,
    formatFloat_isSixDecimal, rfl, rfl, rfl, ?_⟩
  · intro hts
    unfold Expression.format
    rw [hts]
    rfl
  · intro t
    unfold term.format
    split
    · rfl
    · split
      · rfl
      · simp
  · intro k hk
    have := (formatInt_spec k hk).1
    have hmem : ∀ c ∈ formatInt k, isSpace c = false := by
      intro c hc
      unfold formatInt at hc
      have hd := (toDigits_spec k.natAbs).2.1
      split at hc
      · rcases List.mem_cons.1 hc with h1 | h1
        · rw [h1]; decide
        · exact (isDigit_not_special c (hd c h1)).1
      · exact (isDigit_not_special c (hd c hc)).1
    rw [TrimSpace_of_no_space _ hmem] at this
    exact this
  · intro str parsed hp
    have hne := parsed_format_ne_nil str parsed hp
    refine ⟨hne, format_eq_specFormat parsed (Or.inr ?_)⟩
    intro t ht
    exact hne t (List.mem_of_mem_head? ht)

/-- C16 on 2000000*m^2: the coefficient is not 1, and the text is the six-decimal
coefficient, a `*`, and the term. -/
theorem format_definition_witness :
    F64.ne (F64.ofInt 2000000) F64.one = true
    ∧ Expression.format ⟨F64.ofInt 2000000, [⟨"m", 2⟩]⟩
        = String.mk (specFormat ⟨F64.ofInt 2000000, [⟨"m", 2⟩]⟩)
    ∧ specFormat ⟨F64.ofInt 2000000, [⟨"m", 2⟩]⟩ = "2000000.000000*m^2".data :=
  ⟨by decide!,
    (format_definition ⟨F64.ofInt 2000000, [⟨"m", 2⟩]⟩ (Or.inl (by decide!))).1,
    by decide!⟩

/-- C16 as stated fails on the expression "inf*m" parses to: its coefficient is the float
+Inf, which is not 1, and `String` writes it as "+Inf", which is not six-decimal
fixed-point notation; the eval command prints "+Inf*m". -/
theorem format_infinite_coefficient :
    ParseExpression "inf*m" = .ok ⟨.inf false, [⟨"m", 1⟩]⟩
    ∧ eval init 1 "inf*m" = some (.ok "+Inf*m")
    ∧ Expression.format ⟨.inf false, [⟨"m", 1⟩]⟩ = "+Inf*m"
    ∧ F64.ne (.inf false) F64.one = true
    ∧ F64.formatFloat (.inf false) = "+Inf".data
    ∧ isSixDecimal (F64.formatFloat (.inf false)) = false
    ∧ ¬ FormatClaim ⟨.inf false, [⟨"m", 1⟩]⟩ := by
  decide!

/-- Outside the expressions the program builds, the coefficient 1 with the terms of unit
"" and unit m: the first rendering is empty, so `String` writes no `*` before the second
and returns "m", where the renderings joined by `*` are "*m". -/
theorem format_of_empty_first_term :
    Expression.format ⟨F64.one, [⟨"", 1⟩, ⟨"m", 1⟩]⟩ = "m"
    ∧ specFormat ⟨F64.one, [⟨"", 1⟩, ⟨"m", 1⟩]⟩ = "*m".data
    ∧ Expression.format ⟨F64.one, [⟨"", 1⟩, ⟨"m", 1⟩]⟩
        ≠ String.mk (specFormat ⟨F64.one, [⟨"", 1⟩, ⟨"m", 1⟩]⟩) := by
  decide!

theorem replaceLoop_single_none (units : Registry)
    (recurse : Expression → Option (Except String Expression)) (item : term) (unit : Unit)
    (parsed : Expression) (coefficient : F64)
    (hu : GetUnit units item.unit = .ok unit) (hb : unit.IsBaseUnit = false)
    (hp : ParseExpression unit.formula = .ok parsed) (hr : recurse parsed = none) :
    replaceLoop units recurse [item] [] coefficient = none := by
  rw [replaceLoop, hu]
  simp only [hb, Bool.false_eq_true, if_false, hp, hr]

theorem cycle_exhausts (units : Registry)
    (ha : GetUnit units "a" = .ok ⟨"a", "b"⟩) (hb : GetUnit units "b" = .ok ⟨"b", "a"⟩) :
    ∀ fuel, Expression.ReplaceDerivedUnits units fuel ⟨F64.one, [⟨"a", 1⟩]⟩ = none
      ∧ Expression.ReplaceDerivedUnits units fuel ⟨F64.one, [⟨"b", 1⟩]⟩ = none := by
  intro fuel
  induction fuel with
  | zero => exact ⟨rfl, rfl⟩
  | succ fuel ih =>
    constructor
    · rw [Expression.ReplaceDerivedUnits]
      exact replaceLoop_single_none units _ ⟨"a", 1⟩ ⟨"a", "b"⟩ ⟨F64.one, [⟨"b", 1⟩]⟩ _ ha
        (by decide) (by decide!) ih.2
    · rw [Expression.ReplaceDerivedUnits]
      exact replaceLoop_single_none units _ ⟨"b", 1⟩ ⟨"b", "a"⟩ ⟨F64.one, [⟨"a", 1⟩]⟩ _ hb
        (by decide) (by decide!) ih.1

/-- C18: in a registry with the definitions a = "b" and b = "a", the expression "a"
parses and `Validate` accepts it, yet `ReplaceDerivedUnits` returns neither a result nor
an error at any bound on the depth of recursion: the recursion does not end. -/
theorem cyclic_definitions_never_return (units : Registry)
    (ha : GetUnit units "a" = .ok ⟨"a", "b"⟩) (hb : GetUnit units "b" = .ok ⟨"b", "a"⟩) :
    ParseExpression "a" = .ok ⟨F64.one, [⟨"a", 1⟩]⟩
    ∧ Expression.Validate units ⟨F64.one, [⟨"a", 1⟩]⟩ = none
    ∧ ∀ fuel, Expression.ReplaceDerivedUnits units fuel ⟨F64.one, [⟨"a", 1⟩]⟩ = none := by
  refine ⟨by decide!, ?_, fun fuel => (cycle_exhausts units ha hb fuel).1⟩
  unfold Expression.Validate
  rw [validateLoop, ha]
  rfl

/-- C18 on the seeded registry with a = "b" and b = "a" added by `AddUnit`, which does not
look at formulas. -/
theorem cyclic_definitions_never_return_witness :
    AddUnit init "a" "b" = .ok (⟨"a", "b"⟩, init ++ [⟨"a", "b"⟩])
    ∧ AddUnit (init ++ [⟨"a", "b"⟩]) "b" "a" = .ok (⟨"b", "a"⟩, cycleRegistry)
    ∧ GetUnit cycleRegistry "a" = .ok ⟨"a", "b"⟩
    ∧ GetUnit cycleRegistry "b" = .ok ⟨"b", "a"⟩
    ∧ ParseExpression "a" = .ok ⟨F64.one, [⟨"a", 1⟩]⟩
    ∧ Expression.Validate cycleRegistry ⟨F64.one, [⟨"a", 1⟩]⟩ = none
    ∧ ∀ fuel, Expression.ReplaceDerivedUnits cycleRegistry fuel ⟨F64.one, [⟨"a", 1⟩]⟩ = none :=
  ⟨by decide!, by decide!, by decide!, by decide!,
    cyclic_definitions_never_return cycleRegistry (by decide!) (by decide!)⟩

theorem replaceLoop_returns (units : Registry)
    (recurse : Expression → Option (Except String Expression)) (items : List term) :
    ∀ (terms : List term) (coefficient : F64),
      (∀ item ∈ items, ∀ unit parsed, GetUnit units item.unit = .ok unit →
        unit.IsBaseUnit = false → ParseExpression unit.formula = .ok parsed →
        ∃ r, recurse parsed = some r) →
      ∃ r, replaceLoop units recurse items terms coefficient = some r := by
  induction items with
  | nil => intro terms coefficient _; exact ⟨_, rfl⟩
  | cons item rest ih =>
    intro terms coefficient h
    have hrest : ∀ it ∈ rest, ∀ unit parsed, GetUnit units it.unit = .ok unit →
        unit.IsBaseUnit = false → ParseExpression unit.formula = .ok parsed →
        ∃ r, recurse parsed = some r :=
      fun it hit => h it (List.mem_cons_of_mem _ hit)
    rw [replaceLoop]
    cases hu : GetUnit units item.unit with
    | error err => exact ⟨_, rfl⟩
    | ok unit =>
      simp only
      cases hb : unit.IsBaseUnit with
      | true =>
        simp only [if_true]
        exact ih _ _ hrest
      | false =>
        simp only [Bool.false_eq_true, if_false]
        cases hp : ParseExpression unit.formula with
        | error err => exact ⟨_, rfl⟩
        | ok parsed =>
          simp only
          obtain ⟨r, hr⟩ := h item (List.mem_cons_self _ _) unit parsed hu hb hp
          rw [hr]
          cases r with
          | error err => exact ⟨_, rfl⟩
          | ok expr => exact ih _ _ hrest

theorem returns_of_chain_bound (units : Registry) (depth : Nat)
    (hd : ∀ chain, DerivedChain units chain → chain.length ≤ depth) :
    ∀ (k : Nat) (path : List String),
      path.Chain' (flip (DependsOn units)) →
      (∀ a ∈ path, ∃ unit, GetUnit units a = .ok unit ∧ unit.IsBaseUnit = false) →
      depth + 1 ≤ k + path.length →
      ∀ e : Expression,
        (∀ t ∈ e.terms, ∀ h ∈ path.head?, DependsOn units h t.unit) →
        ∃ r, e.ReplaceDerivedUnits units k = some r := by
  intro k
  induction k with
  | zero =>
    intro path hc hreg hlen
    exfalso
    have := hd path.reverse ⟨List.chain'_reverse.2 hc, fun a ha => hreg a (List.mem_reverse.1 ha)⟩
    rw [List.length_reverse] at this
    omega
  | succ k ih =>
    intro path hc hreg hlen e he
    rw [Expression.ReplaceDerivedUnits]
    apply replaceLoop_returns
    intro item hitem unit parsed hu hb hp
    apply ih (item.unit :: path)
    · rw [List.chain'_cons']
      exact ⟨fun y hy => he item hitem y hy, hc⟩
    · intro a ha
      rcases List.mem_cons.1 ha with h1 | h1
      · rw [h1]; exact ⟨unit, hu, hb⟩
      · exact hreg a h1
    · simp only [List.length_cons]; omega
    · intro t ht h hh
      simp only [List.head?_cons, Option.mem_def, Option.some.injEq] at hh
      rw [← hh]
      exact ⟨unit, parsed, hu, hb, hp, t, ht, rfl⟩

theorem chain_length_le (units : Registry) (hac : Acyclic units) (chain : List String)
    (h : DerivedChain units chain) : chain.length ≤ units.length := by
  obtain ⟨hc, hreg⟩ := h
  have ht : chain.Chain' (Relation.TransGen (DependsOn units)) :=
    hc.imp (fun _ _ hab => Relation.TransGen.single hab)
  have hp : chain.Pairwise (Relation.TransGen (DependsOn units)) :=
    List.chain'_iff_pairwise.1 ht
  have hnd : chain.Nodup := by
    unfold List.Nodup
    refine List.Pairwise.imp ?_ hp
    intro a b hab heq
    rw [heq] at hab
    exact hac _ hab
  have hsub : chain ⊆ units.map (fun u => u.name) := by
    intro a ha
    obtain ⟨unit, hu, _⟩ := hreg a ha
    exact GetUnit_ok_name_mem units a unit hu
  have := (hnd.subperm hsub).length_le
  rwa [List.length_map] at this

/-- C17: in a registry whose dependency graph has no cycle, `ReplaceDerivedUnits`
returns, a result or an error, for every expression, within a depth of recursion of the
number of registered units plus one.  A dependency chain of derived units is no longer
than the number of registered units, and the depth of recursion is at most one more than
a bound on the length of these chains. -/
theorem ReplaceDerivedUnits_terminates (units : Registry) (e : Expression)
    (hac : Acyclic units) :
    (∀ fuel, units.length + 1 ≤ fuel → ∃ r, e.ReplaceDerivedUnits units fuel = some r)
    ∧ (∀ chain, DerivedChain units chain → chain.length ≤ units.length)
    ∧ (∀ depth, (∀ chain, DerivedChain units chain → chain.length ≤ depth) →
        ∀ fuel, depth + 1 ≤ fuel → ∃ r, e.ReplaceDerivedUnits units fuel = some r) := by
  have h3 : ∀ depth, (∀ chain, DerivedChain units chain → chain.length ≤ depth) →
      ∀ fuel, depth + 1 ≤ fuel → ∃ r, e.ReplaceDerivedUnits units fuel = some r := by
    intro depth hd fuel hf
    exact returns_of_chain_bound units depth hd fuel [] List.chain'_nil
      (fun a ha => by cases ha) (by simpa using hf) e
      (fun t _ h hh => by simp at hh)
  exact ⟨h3 units.length (chain_length_le units hac), chain_length_le units hac, h3⟩

/-- C17 on the registry with km, h and kmh, which has no cycle, and the expression
"36*kmh": the expansion returns at the depth of eleven, units plus one, and already at
the depth of three, one more than the longest chain kmh, km. -/
theorem ReplaceDerivedUnits_terminates_witness :
    Acyclic kmhRegistry
    ∧ (∀ fuel, kmhRegistry.length + 1 ≤ fuel →
        ∃ r, Expression.ReplaceDerivedUnits kmhRegistry fuel ⟨F64.ofInt 36, [⟨"kmh", 1⟩]⟩
          = some r)
    ∧ Expression.ReplaceDerivedUnits kmhRegistry 3 ⟨F64.ofInt 36, [⟨"kmh", 1⟩]⟩
        = some (.ok ⟨F64.ofInt 10, [⟨"m", 1⟩, ⟨"s", -1⟩]⟩)
    ∧ Expression.ReplaceDerivedUnits kmhRegistry 2 ⟨F64.ofInt 36, [⟨"kmh", 1⟩]⟩ = none :=
  ⟨acyclic_of_check kmhRegistry kmhRank (by decide!),
    (ReplaceDerivedUnits_terminates kmhRegistry ⟨F64.ofInt 36, [⟨"kmh", 1⟩]⟩
      (acyclic_of_check kmhRegistry kmhRank (by decide!))).1,
    by decide!, by decide!⟩

theorem no_cycle_extend {α : Type} (r r2 : α → α → Prop) (n : α)
    (hsrc : ∀ a b, r2 a b → a ≠ n → r a b) (hno : ∀ a, ¬ r2 a n)
    (hacy : ∀ a, ¬ Relation.TransGen r a a) : ∀ a, ¬ Relation.TransGen r2 a a := by
  have htarget : ∀ x y, Relation.TransGen r2 x y → y ≠ n := by
    intro x y hxy
    cases hxy with
    | single h => exact fun hy => hno x (hy ▸ h)
    | tail _ h => exact fun hy => hno _ (hy ▸ h)
  have hlift : ∀ x y, Relation.TransGen r2 x y → x ≠ n → Relation.TransGen r x y := by
    intro x y hxy hx
    induction hxy with
    | single h => exact Relation.TransGen.single (hsrc _ _ h hx)
    | tail hxc hcy ih =>
      exact Relation.TransGen.tail ih (hsrc _ _ hcy (htarget _ _ hxc))
  intro a ha
  exact hacy a (hlift a a ha (htarget a a ha))

theorem no_cycle_sub {α : Type} (r r2 : α → α → Prop) (hsub : ∀ a b, r2 a b → r a b)
    (hacy : ∀ a, ¬ Relation.TransGen r a a) : ∀ a, ¬ Relation.TransGen r2 a a :=
  fun a ha => hacy a (Relation.TransGen.mono hsub ha)

theorem names_append (units : Registry) (u : Unit) :
    GetUnitNames (units ++ [u]) = GetUnitNames units ++ [u.name] := by
  unfold GetUnitNames
  simp

theorem GetUnit_append_cases (units : Registry) (u : Unit) (a : String) (unit : Unit)
    (hn : u.name ∉ GetUnitNames units) (h : GetUnit (units ++ [u]) a = .ok unit) :
    (a = u.name ∧ unit = u) ∨ (a ≠ u.name ∧ GetUnit units a = .ok unit) := by
  by_cases ha : a = u.name
  · left
    rw [ha, GetUnit_append_new units u hn] at h
    cases h
    exact ⟨ha, rfl⟩
  · right
    rw [GetUnit_append_of_ne units u a ha] at h
    exact ⟨ha, h⟩

theorem AllResolve_add (units : Registry) (name formula : String) (stored : Registry)
    (hinv : AllResolve units) (h : addUnit units name formula = .ok stored) :
    AllResolve stored := by
  obtain ⟨hn, ⟨expr, hp, hterms⟩, hs⟩ := (addUnit_ok_iff units name formula stored).1 h
  subst hs
  intro a unit hu
  have hsubset : ∀ x, x ∈ GetUnitNames units → x ∈ GetUnitNames (units ++ [⟨name, formula⟩]) := by
    intro x hx
    rw [names_append]
    exact List.mem_append_left _ hx
  rcases GetUnit_append_cases units ⟨name, formula⟩ a unit hn hu with ⟨_, h2⟩ | ⟨_, h2⟩
  · subst h2
    exact ⟨expr, hp, fun t ht => hsubset _ (hterms t ht)⟩
  · obtain ⟨ex, hpx, htx⟩ := hinv a unit h2
    exact ⟨ex, hpx, fun t ht => hsubset _ (htx t ht)⟩

theorem RefersTo_add (units : Registry) (name formula : String) (stored : Registry)
    (hinv : AllResolve units) (h : addUnit units name formula = .ok stored)
    (hacy : ∀ a, ¬ Relation.TransGen (RefersTo units) a a) :
    ∀ a, ¬ Relation.TransGen (RefersTo stored) a a := by
  obtain ⟨hn, _, hs⟩ := (addUnit_ok_iff units name formula stored).1 h
  subst hs
  have hsrc : ∀ a b, RefersTo (units ++ [⟨name, formula⟩]) a b → a ≠ name →
      RefersTo units a b := by
    rintro a b ⟨hab, unit, ex, hu, hp, ht⟩ ha
    rcases GetUnit_append_cases units ⟨name, formula⟩ a unit hn hu with ⟨h1, _⟩ | ⟨_, h2⟩
    · exact absurd h1 ha
    · exact ⟨hab, unit, ex, h2, hp, ht⟩
  apply no_cycle_extend (RefersTo units) _ name hsrc _ hacy
  intro a hr
  by_cases ha : a = name
  · exact hr.1 ha
  · obtain ⟨_, unit, ex, hu, hp, t, ht, htn⟩ := hsrc a name hr ha
    obtain ⟨ex2, hp2, hterms⟩ := hinv a unit hu
    rw [hp] at hp2
    cases hp2
    exact hn (htn ▸ hterms t ht)

theorem Acyclic_add (units : Registry) (name formula : String) (stored : Registry)
    (hinv : AllResolve units) (h : addUnit units name formula = .ok stored)
    (hacy : Acyclic units) : Acyclic stored := by
  obtain ⟨hn, ⟨expr, hpf, hterms⟩, hs⟩ := (addUnit_ok_iff units name formula stored).1 h
  subst hs
  have hsrc : ∀ a b, DependsOn (units ++ [⟨name, formula⟩]) a b → a ≠ name →
      DependsOn units a b := by
    rintro a b ⟨unit, ex, hu, hb, hp, ht⟩ ha
    rcases GetUnit_append_cases units ⟨name, formula⟩ a unit hn hu with ⟨h1, _⟩ | ⟨_, h2⟩
    · exact absurd h1 ha
    · exact ⟨unit, ex, h2, hb, hp, ht⟩
  apply no_cycle_extend (DependsOn units) _ name hsrc _ hacy
  intro a hr
  by_cases ha : a = name
  · obtain ⟨unit, ex, hu, _, hp, t, ht, htn⟩ := hr
    rcases GetUnit_append_cases units ⟨name, formula⟩ a unit hn hu with ⟨_, h2⟩ | ⟨h1, _⟩
    · subst h2
      rw [hpf] at hp
      cases hp
      exact hn (htn ▸ hterms t ht)
    · exact h1 ha
  · obtain ⟨unit, ex, hu, _, hp, t, ht, htn⟩ := hsrc a name hr ha
    obtain ⟨ex2, hp2, hterms2⟩ := hinv a unit hu
    rw [hp] at hp2
    cases hp2
    exact hn (htn ▸ hterms2 t ht)
theorem GetUnit_filter_ok (units : Registry) (name a : String) (unit : Unit)
    (h : GetUnit (units.filter (fun u => !decide (u.name = name))) a = .ok unit) :
    a ≠ name ∧ GetUnit units a = .ok unit := by
  have ha : a ≠ name := by
    intro hn
    have := GetUnit_ok_name_mem _ a unit h
    rw [hn] at this
    exact not_mem_names_filter units name this
  rw [GetUnit_filter_of_ne units name a ha] at h
  exact ⟨ha, h⟩

theorem AllResolve_remove (units : Registry) (name : String) (stored : Registry)
    (hinv : AllResolve units) (h : removeUnit units name = .ok stored) :
    AllResolve stored := by
  obtain ⟨_, hscan, hs⟩ := (removeUnit_ok_iff units name stored).1 h
  subst hs
  intro a unit hu
  obtain ⟨ha, hu2⟩ := GetUnit_filter_ok units name a unit hu
  obtain ⟨ex, hp, hterms⟩ := hinv a unit hu2
  refine ⟨ex, hp, ?_⟩
  intro t ht
  obtain ⟨unit3, ex3, hu3, hp3, hno⟩ :=
    hscan a (GetUnit_ok_name_mem units a unit hu2) ha
  rw [hu2] at hu3
  cases hu3
  rw [hp] at hp3
  cases hp3
  have hne : t.unit ≠ name := hno t ht
  obtain ⟨ut, hut⟩ := (GetUnit_isOk_iff units t.unit).2 (hterms t ht)
  rw [← GetUnit_filter_of_ne units name t.unit hne] at hut
  exact (GetUnit_isOk_iff _ t.unit).1 ⟨ut, hut⟩

theorem RefersTo_remove (units : Registry) (name : String) (stored : Registry)
    (h : removeUnit units name = .ok stored)
    (hacy : ∀ a, ¬ Relation.TransGen (RefersTo units) a a) :
    ∀ a, ¬ Relation.TransGen (RefersTo stored) a a := by
  obtain ⟨_, _, hs⟩ := (removeUnit_ok_iff units name stored).1 h
  subst hs
  apply no_cycle_sub (RefersTo units) _ _ hacy
  rintro a b ⟨hab, unit, ex, hu, hp, ht⟩
  exact ⟨hab, unit, ex, (GetUnit_filter_ok units name a unit hu).2, hp, ht⟩

theorem Acyclic_remove (units : Registry) (name : String) (stored : Registry)
    (h : removeUnit units name = .ok stored) (hacy : Acyclic units) : Acyclic stored := by
  obtain ⟨_, _, hs⟩ := (removeUnit_ok_iff units name stored).1 h
  subst hs
  apply no_cycle_sub (DependsOn units) _ _ hacy
  rintro a b ⟨unit, ex, hu, hb, hp, ht⟩
  exact ⟨unit, ex, (GetUnit_filter_ok units name a unit hu).2, hb, hp, ht⟩

theorem init_names_itself (a : String) (unit : Unit) (h : GetUnit init a = .ok unit) :
    ∃ expr, ParseExpression unit.formula = .ok expr ∧ ∀ t ∈ expr.terms, t.unit = a := by
  obtain ⟨hm, hn⟩ := GetUnit_ok_mem init a unit h
  have hall : init.all namesItself = true := by decide!
  have hc := List.all_eq_true.1 hall unit hm
  unfold namesItself at hc
  cases hp : ParseExpression unit.formula with
  | error err => rw [hp] at hc; cases hc
  | ok expr =>
    rw [hp] at hc
    refine ⟨expr, rfl, ?_⟩
    intro t ht
    have := List.all_eq_true.1 hc t ht
    rw [← hn]
    simpa using this

/-- The hand-over through the unit file on plain names: the file `StoreUnits` writes of
the map with km, h and kmh loads back to that map, the commands `add km 1000*m` and
`remove km` on the file give the file with km and the empty file, and the file with the
lines a=b and b=a loads to `cycleRegistry`. -/
theorem unit_file_examples :
    StoreUnits kmhRegistry = "km=1000*m\nh=3600*s\nkmh=km*h^-1\n"
    ∧ LoadUnits init (some (StoreUnits kmhRegistry)) = .ok kmhRegistry
    ∧ addUnitOnFile none "km" "1000*m" = .ok "km=1000*m\n"
    ∧ removeUnitOnFile (some "km=1000*m\n") "km" = .ok ""
    ∧ LoadUnits init (some "") = .ok init
    ∧ LoadUnits init none = .ok init
    ∧ LoadUnits init (some "a=b\nb=a\n") = .ok cycleRegistry
    ∧ LoadUnits init (some "km = 1000*m\r\nno separator\n\nh=3600*s")
        = .ok hourRegistry
    ∧ LoadUnits init (some "m=2*s\n") = .error "Unit 'm' already defined"
    ∧ evalOnFile (some (StoreUnits kmhRegistry)) 3 "36*kmh"
        = some (.ok "10.000000*m*s^-1") := by
  decide!

theorem init_well_formed :
    AllResolve init ∧ (∀ a, ¬ Relation.TransGen (RefersTo init) a a) ∧ Acyclic init := by
  refine ⟨?_, ?_, acyclic_of_check init (fun _ => 0) (by decide!)⟩
  · intro a unit hu
    obtain ⟨expr, hp, hterms⟩ := init_names_itself a unit hu
    refine ⟨expr, hp, fun t ht => ?_⟩
    rw [hterms t ht]
    exact GetUnit_ok_name_mem init a unit hu
  · intro a ha
    have hnone : ∀ x y, ¬ RefersTo init x y := by
      rintro x y ⟨hxy, unit, ex, hu, hp, t, ht, htn⟩
      obtain ⟨expr, hp2, hterms⟩ := init_names_itself x unit hu
      rw [hp] at hp2
      cases hp2
      exact hxy ((hterms t ht).symm.trans htn)
    cases ha with
    | single h1 => exact hnone _ _ h1
    | tail _ h1 => exact hnone _ _ h1

/-- Within one process a command keeps the map well formed.  When in the loaded map the
formula of every unit parses, every term of a parsed formula names a registered unit, and
no unit refers or depends back on itself, then the same holds of the map a successful
`addUnit` or `removeUnit` hands to `StoreUnits`, and on that map `ReplaceDerivedUnits`
returns a result, at every bound on the depth of recursion above the number of units, for
every expression `Validate` accepts. -/
theorem command_keeps_well_formed (units stored : Registry)
    (hres : AllResolve units)
    (hrefs : ∀ a, ¬ Relation.TransGen (RefersTo units) a a)
    (hacy : Acyclic units)
    (hcmd : (∃ name formula, addUnit units name formula = .ok stored)
      ∨ ∃ name, removeUnit units name = .ok stored) :
    AllResolve stored
    ∧ (∀ a, ¬ Relation.TransGen (RefersTo stored) a a)
    ∧ Acyclic stored
    ∧ ∀ e : Expression, e.Validate stored = none →
        ∃ result, ∀ fuel, stored.length + 1 ≤ fuel →
          e.ReplaceDerivedUnits stored fuel = some (.ok result) := by
  have hinv : AllResolve stored ∧ (∀ a, ¬ Relation.TransGen (RefersTo stored) a a)
      ∧ Acyclic stored := by
    rcases hcmd with ⟨name, formula, hadd⟩ | ⟨name, hrem⟩
    · exact ⟨AllResolve_add units name formula stored hres hadd,
        RefersTo_add units name formula stored hres hadd hrefs,
        Acyclic_add units name formula stored hres hadd hacy⟩
    · exact ⟨AllResolve_remove units name stored hres hrem,
        RefersTo_remove units name stored hrem hrefs,
        Acyclic_remove units name stored hrem hacy⟩
  refine ⟨hinv.1, hinv.2.1, hinv.2.2, ?_⟩
  intro e hv
  have hr : Resolvable stored := by
    intro name unit hu _
    obtain ⟨expr, hp, hterms⟩ := hinv.1 name unit hu
    exact ⟨expr, hp, (Validate_none_iff stored expr).2 hterms⟩
  obtain ⟨result, hok, _⟩ := ReplaceDerivedUnits_total stored hr hinv.2.2 (stored.length + 1) []
    List.nodup_nil (fun p hp => by cases hp) (by simp) e hv
    (fun t _ p hp => by cases hp)
  exact ⟨result, ReplaceDerivedUnits_mono_le stored e _ _ hok⟩

/-- The seeded map is well formed, and so is the map `add km 1000*m` leaves of it. -/
theorem command_keeps_well_formed_witness :
    AllResolve init
    ∧ (∀ a, ¬ Relation.TransGen (RefersTo init) a a)
    ∧ Acyclic init
    ∧ addUnit init "km" "1000*m" = .ok kmRegistry
    ∧ AllResolve kmRegistry
    ∧ (∀ a, ¬ Relation.TransGen (RefersTo kmRegistry) a a)
    ∧ Acyclic kmRegistry
    ∧ ∀ e : Expression, e.Validate kmRegistry = none →
        ∃ result, ∀ fuel, kmRegistry.length + 1 ≤ fuel →
          e.ReplaceDerivedUnits kmRegistry fuel = some (.ok result) :=
  have hadd : addUnit init "km" "1000*m" = .ok kmRegistry := by decide!
  ⟨init_well_formed.1, init_well_formed.2.1, init_well_formed.2.2, hadd,
    command_keeps_well_formed init kmRegistry init_well_formed.1 init_well_formed.2.1
      init_well_formed.2.2 (Or.inl ⟨"km", "1000*m", hadd⟩)⟩

/-- C19 fails through the unit file.  On a first start the command `units add a=b m`
succeeds and stores the line a=b=m.  The next process cuts that line at its first `=`
and holds the unit a with the formula "b=m", which parses to the one term of unit b=m:
no registered unit.  `Validate` accepts the expression a, and `ReplaceDerivedUnits`
returns the error that the unit b=m is not found, which `units a` exits with. -/
theorem stored_unit_loads_split :
    addUnit init "a=b" "m" = .ok (init ++ [⟨"a=b", "m"⟩])
    ∧ StoreUnits (init ++ [⟨"a=b", "m"⟩]) = "a=b=m\n"
    ∧ addUnitOnFile none "a=b" "m" = .ok "a=b=m\n"
    ∧ LoadUnits init (some "a=b=m\n") = .ok splitRegistry
    ∧ GetUnit splitRegistry "a" = .ok ⟨"a", "b=m"⟩
    ∧ ParseExpression "b=m" = .ok ⟨F64.one, [⟨"b=m", 1⟩]⟩
    ∧ "b=m" ∉ GetUnitNames splitRegistry
    ∧ ¬ AllResolve splitRegistry
    ∧ ParseExpression "a" = .ok ⟨F64.one, [⟨"a", 1⟩]⟩
    ∧ Expression.Validate splitRegistry ⟨F64.one, [⟨"a", 1⟩]⟩ = none
    ∧ (∀ fuel, 2 ≤ fuel →
        Expression.ReplaceDerivedUnits splitRegistry fuel ⟨F64.one, [⟨"a", 1⟩]⟩
          = some (.error "Unit 'b=m' not found"))
    ∧ (∀ fuel, 2 ≤ fuel →
        evalOnFile (some "a=b=m\n") fuel "a" = some (.error "Unit 'b=m' not found")) := by
  have hload : LoadUnits init (some "a=b=m\n") = .ok splitRegistry := by decide!
  have hparse : ParseExpression "b=m" = .ok ⟨F64.one, [⟨"b=m", 1⟩]⟩ := by decide!
  have hnot : "b=m" ∉ GetUnitNames splitRegistry := by decide!
  have hget : GetUnit splitRegistry "a" = .ok ⟨"a", "b=m"⟩ := by decide!
  have hpa : ParseExpression "a" = .ok ⟨F64.one, [⟨"a", 1⟩]⟩ := by decide!
  have hval : Expression.Validate splitRegistry ⟨F64.one, [⟨"a", 1⟩]⟩ = none := by decide!
  have hrep : ∀ fuel, 2 ≤ fuel →
      Expression.ReplaceDerivedUnits splitRegistry fuel ⟨F64.one, [⟨"a", 1⟩]⟩
        = some (.error "Unit 'b=m' not found") := by
    intro fuel hf
    have h2 : Expression.ReplaceDerivedUnits splitRegistry 2 ⟨F64.one, [⟨"a", 1⟩]⟩
        = some (.error "Unit 'b=m' not found") := by decide!
    exact ReplaceDerivedUnits_mono_le splitRegistry _ _ 2 h2 fuel hf
  refine ⟨by decide!, by decide!, by decide!, hload, hget, hparse, hnot, ?_, hpa, hval,
    hrep, ?_⟩
  · intro hall
    obtain ⟨expr, hp, hterms⟩ := hall "a" ⟨"a", "b=m"⟩ hget
    rw [show (⟨"a", "b=m"⟩ : Unit).formula = "b=m" from rfl, hparse] at hp
    cases hp
    exact hnot (hterms ⟨"b=m", 1⟩ (List.mem_singleton.2 rfl))
  · intro fuel hf
    unfold evalOnFile eval
    rw [hload]
    simp only [hpa, hval, hrep fuel hf]

theorem termsValue_cons (v : String → ℚ) (x : term) (xs : List term) :
    termsValue v (x :: xs) = v x.unit ^ x.exponent * termsValue v xs := by
  unfold termsValue
  simp

theorem termsValue_append (v : String → ℚ) (xs ys : List term) :
    termsValue v (xs ++ ys) = termsValue v xs * termsValue v ys := by
  unfold termsValue
  simp

theorem exponentOf_of_mem (m : List term) (h : (m.map (fun t => t.unit)).Nodup) :
    ∀ t ∈ m, exponentOf t.unit m = t.exponent := by
  induction m with
  | nil => intro t ht; cases ht
  | cons x xs ih =>
    rw [List.map_cons, List.nodup_cons] at h
    intro t ht
    rcases List.mem_cons.1 ht with h1 | h1
    · rw [h1]
      simp [exponentOf]
    · have hne : ¬ x.unit = t.unit := by
        intro heq
        exact h.1 (heq ▸ List.mem_map.2 ⟨t, h1, rfl⟩)
      have : exponentOf t.unit (x :: xs) = exponentOf t.unit xs := by
        simp [exponentOf, hne]
      rw [this, ih h.2 t h1]

theorem termsValue_filter (v : String → ℚ) (m : List term) :
    termsValue v (m.filter (fun item => decide (item.exponent ≠ 0))) = termsValue v m := by
  induction m with
  | nil => rfl
  | cons x xs ih =>
    by_cases hx : x.exponent = 0
    · have hf : (x :: xs).filter (fun item => decide (item.exponent ≠ 0))
          = xs.filter (fun item => decide (item.exponent ≠ 0)) := by
        simp [List.filter_cons, hx]
      rw [hf, ih, termsValue_cons, hx, zpow_zero, one_mul]
    · have hf : (x :: xs).filter (fun item => decide (item.exponent ≠ 0))
          = x :: xs.filter (fun item => decide (item.exponent ≠ 0)) := by
        simp [List.filter_cons, hx]
      rw [hf, termsValue_cons, termsValue_cons, ih]

theorem prod_shift_of_not_mem (v : String → ℚ) (a : String) (k : Int) (f : String → Int)
    (us : List String) (h : a ∉ us) :
    (us.map (fun u => v u ^ ((if a = u then k else 0) + f u))).prod
      = (us.map (fun u => v u ^ f u)).prod := by
  congr 1
  apply List.map_congr_left
  intro u hu
  have : ¬ a = u := fun hau => h (hau ▸ hu)
  simp [this]

theorem prod_shift (v : String → ℚ) (a : String) (k : Int) (f : String → Int)
    (ha : v a ≠ 0) (us : List String) (hnd : us.Nodup) (hm : a ∈ us) :
    (us.map (fun u => v u ^ ((if a = u then k else 0) + f u))).prod
      = v a ^ k * (us.map (fun u => v u ^ f u)).prod := by
  induction us with
  | nil => cases hm
  | cons u0 rest ih =>
    rw [List.nodup_cons] at hnd
    rw [List.map_cons, List.prod_cons, List.map_cons, List.prod_cons]
    by_cases h0 : a = u0
    · subst h0
      rw [prod_shift_of_not_mem v a k f rest hnd.1, if_pos rfl, zpow_add₀ ha]
      ring
    · have hmr : a ∈ rest := by
        rcases List.mem_cons.1 hm with h1 | h1
        · exact absurd h1 h0
        · exact h1
      rw [ih hnd.2 hmr, if_neg h0, zero_add]
      ring

theorem termsValue_regroup (v : String → ℚ) (us : List String) (hnd : us.Nodup)
    (ts : List term) :
    (∀ t ∈ ts, t.unit ∈ us) → (∀ t ∈ ts, v t.unit ≠ 0) →
      termsValue v ts = (us.map (fun u => v u ^ exponentSum u ts)).prod := by
  induction ts with
  | nil =>
    intro _ _
    have : (us.map (fun u => v u ^ exponentSum u [])) = us.map (fun _ => (1 : ℚ)) := by
      apply List.map_congr_left
      intro u _
      simp [exponentSum]
    rw [this]
    simp [termsValue]
  | cons x xs ih =>
    intro hmem hv
    have hx := hmem x (List.mem_cons_self _ _)
    have hvx := hv x (List.mem_cons_self _ _)
    rw [termsValue_cons, ih (fun t ht => hmem t (List.mem_cons_of_mem _ ht))
      (fun t ht => hv t (List.mem_cons_of_mem _ ht))]
    have : (us.map (fun u => v u ^ exponentSum u (x :: xs)))
        = us.map (fun u => v u ^ ((if x.unit = u then x.exponent else 0) + exponentSum u xs)) := by
      apply List.map_congr_left
      intro u _
      rw [exponentSum_cons]
    rw [this, prod_shift v x.unit x.exponent _ hvx us hnd hx]

theorem foldl_addTerm_units_mem (ts : List term) :
    ∀ m : List term,
      (∀ t ∈ m, t.unit ∈ (ts.foldl addTerm m).map (fun t => t.unit))
      ∧ ∀ t ∈ ts, t.unit ∈ (ts.foldl addTerm m).map (fun t => t.unit) := by
  induction ts with
  | nil =>
    intro m
    exact ⟨fun t ht => List.mem_map.2 ⟨t, ht, rfl⟩, fun t ht => by cases ht⟩
  | cons x xs ih =>
    intro m
    have hstep : ∀ u, u ∈ m.map (fun t => t.unit) ∨ u = x.unit →
        u ∈ (addTerm m x).map (fun t => t.unit) := by
      intro u hu
      rw [addTerm_units]
      split
      · rename_i hm
        rcases hu with h1 | h1
        · exact h1
        · rw [h1]; exact hm
      · rcases hu with h1 | h1
        · exact List.mem_append_left _ h1
        · rw [h1]; simp
    obtain ⟨h1, h2⟩ := ih (addTerm m x)
    have hlift : ∀ u, u ∈ (addTerm m x).map (fun t => t.unit) →
        u ∈ (List.foldl addTerm (addTerm m x) xs).map (fun t => t.unit) := by
      intro u hu
      obtain ⟨t, ht, rfl⟩ := List.mem_map.1 hu
      exact h1 t ht
    rw [List.foldl_cons]
    constructor
    · intro t ht
      exact hlift _ (hstep _ (Or.inl (List.mem_map.2 ⟨t, ht, rfl⟩)))
    · intro t ht
      rcases List.mem_cons.1 ht with h3 | h3
      · rw [h3]; exact hlift _ (hstep _ (Or.inr rfl))
      · exact h2 t h3

theorem value_Normalize (v : String → ℚ) (e : Expression)
    (hv : ∀ t ∈ e.terms, v t.unit ≠ 0)
    (hr : ∀ t ∈ e.terms, minInt ≤ t.exponent ∧ t.exponent ≤ maxInt)
    (hs : ∀ u, minInt ≤ exponentSum u e.terms ∧ exponentSum u e.terms ≤ maxInt) :
    value v e.Normalize = value v e := by
  have hnd := foldl_addTerm_nodup e.terms [] List.nodup_nil
  have hexp : ∀ u, exponentOf u (e.terms.foldl addTerm []) = exponentSum u e.terms := by
    intro u
    have h0 : exponentOf u [] = wrap64 0 := rfl
    have hf := foldl_addTerm_exponentOf u e.terms [] 0 hr h0 (fun _ => rfl)
    rw [Int.zero_add, wrap64_of_range _ (hs u)] at hf
    exact hf
  have hm : termsValue v (e.terms.foldl addTerm [])
      = (((e.terms.foldl addTerm []).map (fun t => t.unit)).map
          (fun u => v u ^ exponentSum u e.terms)).prod := by
    unfold termsValue
    rw [List.map_map]
    congr 1
    apply List.map_congr_left
    intro t ht
    simp only [Function.comp]
    rw [← hexp t.unit, exponentOf_of_mem _ hnd t ht]
  unfold value Expression.Normalize
  simp only
  rw [termsValue_filter, hm,
    ← termsValue_regroup v _ hnd e.terms (foldl_addTerm_units_mem e.terms []).2 hv]
theorem termsValue_scaled (v : String → ℚ) (k : Int) (ts : List term)
    (h : ∀ x ∈ ts, minInt ≤ x.exponent * k ∧ x.exponent * k ≤ maxInt) :
    termsValue v (ts.map (fun x => ⟨x.unit, wrap64 (x.exponent * k)⟩))
      = termsValue v ts ^ k := by
  induction ts with
  | nil => simp [termsValue]
  | cons x xs ih =>
    rw [List.map_cons, termsValue_cons, termsValue_cons,
      ih (fun y hy => h y (List.mem_cons_of_mem _ hy)), mul_zpow]
    simp only
    rw [wrap64_of_range _ (h x (List.mem_cons_self _ _)), zpow_mul]

theorem replaceLoop_value (units : Registry) (v : String → ℚ)
    (recurse : Expression → Option (Except String Expression)) (exact : Expression → Bool)
    (hv : Valuation units v)
    (hrec : ∀ parsed r, recurse parsed = some (.ok r) → exact parsed = true →
      value v r = value v parsed)
    (items : List term) :
    ∀ (terms : List term) (coefficient : F64) (r : Expression),
      replaceLoop units recurse items terms coefficient = some (.ok r) →
      exactLoop units recurse exact items coefficient = true →
      value v r = coefficient.toRat * termsValue v terms * termsValue v items := by
  induction items with
  | nil =>
    intro terms coefficient r hr _
    rw [replaceLoop] at hr
    cases hr
    simp [value, termsValue]
  | cons item rest ih =>
    intro terms coefficient r hr hex
    rw [replaceLoop] at hr
    rw [exactLoop] at hex
    cases hu : GetUnit units item.unit with
    | error err => rw [hu] at hr; cases hr
    | ok unit =>
      rw [hu] at hr hex
      simp only at hr hex
      cases hb : unit.IsBaseUnit with
      | true =>
        rw [hb] at hr hex
        simp only [if_true] at hr hex
        rw [ih _ _ _ hr hex, termsValue_append, termsValue_cons, termsValue_cons]
        simp only [termsValue, List.map_nil, List.prod_nil, mul_one]
        ring
      | false =>
        rw [hb] at hr hex
        simp only [Bool.false_eq_true, if_false] at hr hex
        cases hp : ParseExpression unit.formula with
        | error err => rw [hp] at hr; cases hr
        | ok parsed =>
          rw [hp] at hr hex
          simp only at hr hex
          cases hrc : recurse parsed with
          | none => rw [hrc] at hr; cases hr
          | some res =>
            cases res with
            | error err => rw [hrc] at hr; cases hr
            | ok expr =>
              rw [hrc] at hr hex
              simp only [Bool.and_eq_true] at hr hex
              obtain ⟨⟨hexp, hstep⟩, hrest⟩ := hex
              unfold exactStep at hstep
              simp only [Bool.and_eq_true, List.all_eq_true, decide_eq_true_eq] at hstep
              obtain ⟨⟨hrange, _⟩, hcoef⟩ := hstep
              have hval : value v expr = v item.unit := by
                rw [hrec parsed expr hrc hexp]
                exact (hv.2 item.unit unit parsed hu hb hp).symm
              have hnext := ih _ (nextCoefficient coefficient expr item.exponent) r hr hrest
              rw [hnext, hcoef, termsValue_append, termsValue_scaled v _ _ hrange,
                termsValue_cons, ← hval]
              unfold value
              rw [mul_zpow]
              ring

theorem ReplaceDerivedUnits_value (units : Registry) (v : String → ℚ)
    (hv : Valuation units v) :
    ∀ (fuel : Nat) (e r : Expression),
      e.ReplaceDerivedUnits units fuel = some (.ok r) → exactRun units fuel e = true →
      value v r = value v e := by
  intro fuel
  induction fuel with
  | zero => intro e r h; rw [Expression.ReplaceDerivedUnits] at h; cases h
  | succ fuel ih =>
    intro e r h hex
    rw [Expression.ReplaceDerivedUnits] at h
    rw [exactRun] at hex
    rw [replaceLoop_value units v _ _ hv ih e.terms [] e.coefficient r h hex]
    simp [value, termsValue]

theorem replaceLoop_registered (units : Registry)
    (recurse : Expression → Option (Except String Expression)) (items : List term) :
    ∀ (terms : List term) (coefficient : F64) (r : Expression),
      replaceLoop units recurse items terms coefficient = some (.ok r) →
      ∀ t ∈ items, t.unit ∈ GetUnitNames units := by
  induction items with
  | nil => intro _ _ _ _ t ht; cases ht
  | cons item rest ih =>
    intro terms coefficient r hr t ht
    rw [replaceLoop] at hr
    cases hu : GetUnit units item.unit with
    | error err => rw [hu] at hr; cases hr
    | ok unit =>
      have hitem : item.unit ∈ GetUnitNames units := GetUnit_ok_name_mem units _ unit hu
      rw [hu] at hr
      simp only at hr
      have hrest : ∀ t ∈ rest, t.unit ∈ GetUnitNames units := by
        cases hb : unit.IsBaseUnit with
        | true =>
          rw [hb] at hr
          simp only [if_true] at hr
          exact ih _ _ _ hr
        | false =>
          rw [hb] at hr
          simp only [Bool.false_eq_true, if_false] at hr
          cases hp : ParseExpression unit.formula with
          | error err => rw [hp] at hr; cases hr
          | ok parsed =>
            rw [hp] at hr
            simp only at hr
            cases hrc : recurse parsed with
            | none => rw [hrc] at hr; cases hr
            | some res =>
              cases res with
              | error err => rw [hrc] at hr; cases hr
              | ok expr =>
                rw [hrc] at hr
                exact ih _ _ _ hr
      rcases List.mem_cons.1 ht with h1 | h1
      · rw [h1]; exact hitem
      · exact hrest t h1

theorem ReplaceDerivedUnits_registered (units : Registry) (fuel : Nat) (e r : Expression)
    (h : e.ReplaceDerivedUnits units fuel = some (.ok r)) :
    ∀ t ∈ e.terms, t.unit ∈ GetUnitNames units := by
  cases fuel with
  | zero => rw [Expression.ReplaceDerivedUnits] at h; cases h
  | succ fuel =>
    rw [Expression.ReplaceDerivedUnits] at h
    exact replaceLoop_registered units _ e.terms [] e.coefficient r h

/-- C20, as the code has it: let `v` fit the registry, and let the expansion of `e`
return `r`.  If no float operation of the expansion rounds or leaves the finite range and
no product of exponents overflows, `r` has the value of `e`; and if the exponents of `e`
are `int`s whose sum for each unit is an `int`, the normalized `e` has the value of
`e`. -/
theorem value_preserved (units : Registry) (v : String → ℚ) (fuel : Nat)
    (e r : Expression) (hv : Valuation units v)
    (hr : e.ReplaceDerivedUnits units fuel = some (.ok r)) :
    (exactRun units fuel e = true → value v r = value v e)
    ∧ ((∀ t ∈ e.terms, minInt ≤ t.exponent ∧ t.exponent ≤ maxInt) →
        (∀ u, minInt ≤ exponentSum u e.terms ∧ exponentSum u e.terms ≤ maxInt) →
        value v e.Normalize = value v e) := by
  constructor
  · exact ReplaceDerivedUnits_value units v hv fuel e r hr
  · intro hint hsum
    apply value_Normalize v e _ hint hsum
    intro t ht
    exact hv.1 _ (ReplaceDerivedUnits_registered units fuel e r hr t ht)

theorem valuation_of_check (units : Registry) (v : String → ℚ)
    (h : valuationFits units v = true) : Valuation units v := by
  unfold valuationFits at h
  rw [List.all_eq_true] at h
  constructor
  · intro name hn
    unfold GetUnitNames at hn
    obtain ⟨unit, hu, rfl⟩ := List.mem_map.1 hn
    have := h unit hu
    simp only [Bool.and_eq_true, decide_eq_true_eq] at this
    exact this.1
  · intro name unit expr hu hb hp
    obtain ⟨hm, hn⟩ := GetUnit_ok_mem units name unit hu
    have := h unit hm
    rw [hb, hp] at this
    simp only [Bool.false_or, Bool.and_eq_true, decide_eq_true_eq] at this
    rw [← hn]
    exact this.2


theorem value_one_term (v : String → ℚ) (c : F64) (u : String) (k : Int) :
    value v ⟨c, [⟨u, k⟩]⟩ = c.toRat * v u ^ k := by
  simp [value, termsValue]

theorem value_two_terms (v : String → ℚ) (c : F64) (u w : String) (k n : Int) :
    value v ⟨c, [⟨u, k⟩, ⟨w, n⟩]⟩ = c.toRat * (v u ^ k * v w ^ n) := by
  simp [value, termsValue]

theorem overflow_values_differ :
    value allTwo (Expression.Normalize ⟨F64.one, overflowTerms⟩)
      ≠ value allTwo ⟨F64.one, overflowTerms⟩ := by
  have hn : Expression.Normalize ⟨F64.one, overflowTerms⟩
      = ⟨F64.one, [⟨"m", -9223372036854775808⟩]⟩ := by decide!
  have ho : overflowTerms = [⟨"m", 9223372036854775807⟩, ⟨"m", 1⟩] := rfl
  have hone : F64.one.toRat = 1 := by decide!
  have h2 : allTwo "m" = 2 := rfl
  rw [hn, ho, value_one_term, value_two_terms, hone, one_mul, one_mul, h2,
    ← zpow_add₀ (two_ne_zero : (2 : ℚ) ≠ 0)]
  intro h
  have h3 := (zpow_right_inj₀ (by norm_num : (0 : ℚ) < 2) (by norm_num : (2 : ℚ) ≠ 1)).1 h
  revert h3
  decide

/-- C20 on the registry with km = 1000*m, the values 1000 for km and 1 for m, and the
expression 2*km^2: the expansion computes 2 * 1000^2 exactly, and the expansion
2000000*m^2 and the normal form both have the value of the expression. -/
theorem value_preserved_witness :
    Valuation kmRegistry hourValues
    ∧ Expression.ReplaceDerivedUnits kmRegistry 2 ⟨F64.ofInt 2, [⟨"km", 2⟩]⟩
        = some (.ok ⟨F64.ofInt 2000000, [⟨"m", 2⟩]⟩)
    ∧ exactRun kmRegistry 2 ⟨F64.ofInt 2, [⟨"km", 2⟩]⟩ = true
    ∧ value hourValues ⟨F64.ofInt 2000000, [⟨"m", 2⟩]⟩
        = value hourValues ⟨F64.ofInt 2, [⟨"km", 2⟩]⟩
    ∧ value hourValues (Expression.Normalize ⟨F64.ofInt 2, [⟨"km", 2⟩]⟩)
        = value hourValues ⟨F64.ofInt 2, [⟨"km", 2⟩]⟩
    ∧ value hourValues ⟨F64.ofInt 2, [⟨"km", 2⟩]⟩ = 2000000 :=
  have hv : Valuation kmRegistry hourValues := valuation_of_check _ _ (by decide!)
  have hs : ∀ u, minInt ≤ exponentSum u [(⟨"km", 2⟩ : term)]
      ∧ exponentSum u [(⟨"km", 2⟩ : term)] ≤ maxInt := by
    intro u
    have h0 : exponentSum u [] = 0 := rfl
    rw [exponentSum_cons, h0]
    by_cases h : "km" = u
    · simp only [h, if_true]; decide
    · simp only [h, if_false]; decide
  have hp := value_preserved kmRegistry hourValues 2 ⟨F64.ofInt 2, [⟨"km", 2⟩]⟩
    ⟨F64.ofInt 2000000, [⟨"m", 2⟩]⟩ hv (by decide!)
  ⟨hv, by decide!, by decide!, hp.1 (by decide!), hp.2 (by decide) hs, by decide!⟩

/-- C20 as stated fails where the code rounds and where it overflows.  With h = 3600*s
and the values 3600 for h and 1 for s, the expansion of h^-1 has the coefficient nearest
to 1/3600 among the floats, 5124095576030431 / 2^64, and so not the value 1/3600.  With
the value 2 for m, m^9223372036854775807*m has the value 2^(2^63), its normal form
m^-9223372036854775808 the value 2^-(2^63). -/
theorem value_not_preserved :
    Valuation hourRegistry hourValues
    ∧ ParseExpression "3600*s" = .ok ⟨F64.ofInt 3600, [⟨"s", 1⟩]⟩
    ∧ (F64.ofInt 3600).toRat = 3600
    ∧ Expression.ReplaceDerivedUnits hourRegistry 2 ⟨F64.one, [⟨"h", -1⟩]⟩
        = some (.ok ⟨F64.Pow (F64.ofInt 3600) (-1), [⟨"s", -1⟩]⟩)
    ∧ value hourValues ⟨F64.one, [⟨"h", -1⟩]⟩ = 1 / 3600
    ∧ value hourValues ⟨F64.Pow (F64.ofInt 3600) (-1), [⟨"s", -1⟩]⟩
        = 5124095576030431 / 2 ^ 64
    ∧ value hourValues ⟨F64.Pow (F64.ofInt 3600) (-1), [⟨"s", -1⟩]⟩
        ≠ value hourValues ⟨F64.one, [⟨"h", -1⟩]⟩
    ∧ Valuation init allTwo
    ∧ Expression.ReplaceDerivedUnits init 1 ⟨F64.one, overflowTerms⟩
        = some (.ok ⟨F64.one, overflowTerms⟩)
    ∧ value allTwo (Expression.Normalize ⟨F64.one, overflowTerms⟩)
        ≠ value allTwo ⟨F64.one, overflowTerms⟩ :=
  ⟨valuation_of_check _ _ (by decide!), by decide!, by decide!, by decide!, by decide!,
    by decide!, by decide!, valuation_of_check _ _ (by decide!), by decide!,
    overflow_values_differ⟩

end GoUnits
